import Mathlib

/-!
Verification of the `tsdistances_gpu` diagonal-wavefront GPU engine.

This file shallowly embeds the host scheduler (`src/warps.rs`) and the
device kernels (`src/kernels.rs`) in Lean.  Machine integers (`usize`,
`u64`, `i64`) are modelled by `Nat`/`Int`; the `as usize` cast of a
signed ring offset wraps at `2^64` and is modelled explicitly.  `f32`
cell values are modelled by an abstract value type `α` (instantiated at
exact rationals `ℚ` for the concrete recurrences), since the engine
itself only stores and moves cell values produced by the per-measure
cost function.  Fallible code (Rust panics: out-of-bounds vector
writes, division by zero) is modelled with `Option`.

The SIMT kernel is sequentialised: the lanes of one diamond are folded
in lane order within each anti-diagonal step, and the diamonds of one
dispatch (and the pairs of a batch dispatch) are folded in thread-id
order.  This matches the lockstep-with-barrier semantics of the source
because distinct in-flight writes and read targets of one step occupy
distinct ring slots (proved below as the ring-addressing theorem).
-/

namespace TsdGpu

/-- `next_multiple_of_n` from `src/warps.rs`: `(x + n - 1) / n * n`.
(Rust panics for `n = 0`; the engine only calls it with the device warp
width `n ≥ 1`.) -/
def next_multiple_of_n (x n : ℕ) : ℕ := (x + n - 1) / n * n

/-- Rust `usize::next_power_of_two`: the least power of two `≥ x`
(`1` for `x = 0`).  Structural recursion equivalent to the bit-twiddling
in the Rust standard library. -/
def next_power_of_two : ℕ → ℕ
  | 0 => 1
  | n + 1 => if n + 1 ≤ next_power_of_two n then next_power_of_two n
             else 2 * next_power_of_two n

/-- `compute_diag_len` from `src/warps.rs`:
`2 * (padded_len + 1).next_power_of_two()` where
`padded_len = get_padded_len(sample_length, pad_stride)`. -/
def compute_diag_len (sample_length pad_stride : ℕ) : ℕ :=
  2 * next_power_of_two (next_multiple_of_n sample_length pad_stride + 1)

/-- Rust `usize::div_ceil` (for a non-zero divisor). -/
def div_ceil (x n : ℕ) : ℕ := (x + n - 1) / n

/-- Ring-slot addressing of `GpuMatrix::{get,set}_diagonal_cell`
(`src/kernels.rs`): the signed diagonal offset `k` is cast `as usize`
(two's-complement wrap at `2^64`) and masked with `mask = L - 1`, then
added to the per-pair segment base `diagonal_offset`. -/
def slotIdx (diagonal_offset mask : ℕ) (k : ℤ) : ℕ :=
  diagonal_offset + ((k % (2 ^ 64 : ℤ)).toNat &&& mask)

/-! ### Basic arithmetic facts about the padding helpers -/

theorem next_power_of_two_pos (x : ℕ) : 1 ≤ next_power_of_two x := by
  induction x with
  | zero => simp [next_power_of_two]
  | succ n ih =>
    rw [next_power_of_two]
    split
    · exact ih
    · omega

theorem next_power_of_two_ge (x : ℕ) : x ≤ next_power_of_two x := by
  induction x with
  | zero => simp [next_power_of_two]
  | succ n ih =>
    rw [next_power_of_two]
    split
    · omega
    · have := next_power_of_two_pos n
      omega

theorem next_power_of_two_is_pow2 (x : ℕ) : ∃ m, next_power_of_two x = 2 ^ m := by
  induction x with
  | zero => exact ⟨0, rfl⟩
  | succ n ih =>
    obtain ⟨m, hm⟩ := ih
    rw [next_power_of_two]
    split
    · exact ⟨m, hm⟩
    · exact ⟨m + 1, by rw [hm]; ring⟩

/-- Minimality of `next_power_of_two`: it does not overshoot a power of
two that is already large enough. -/
theorem next_power_of_two_le_pow (x k : ℕ) (h : x ≤ 2 ^ k) :
    next_power_of_two x ≤ 2 ^ k := by
  induction x with
  | zero => simpa [next_power_of_two] using Nat.one_le_two_pow
  | succ n ih =>
    have hn : n ≤ 2 ^ k := by omega
    have ihk := ih hn
    rw [next_power_of_two]
    split
    · exact ihk
    · rename_i hlt
      obtain ⟨m, hm⟩ := next_power_of_two_is_pow2 n
      have hmk : m < k := by
        by_contra hc
        have : 2 ^ k ≤ 2 ^ m := Nat.pow_le_pow_right (by omega) (by omega)
        omega
      have : 2 * next_power_of_two n = 2 ^ (m + 1) := by rw [hm]; ring
      rw [this]
      exact Nat.pow_le_pow_right (by omega) (by omega)

theorem next_multiple_of_n_ge (x n : ℕ) (hn : 1 ≤ n) :
    x ≤ next_multiple_of_n x n := by
  unfold next_multiple_of_n
  have h1 := Nat.div_add_mod (x + n - 1) n
  have h2 : (x + n - 1) % n < n := Nat.mod_lt _ (by omega)
  have h3 : x ≤ n * ((x + n - 1) / n) := by omega
  calc x ≤ n * ((x + n - 1) / n) := h3
    _ = (x + n - 1) / n * n := by ring

theorem next_multiple_of_n_lt (x n : ℕ) (hn : 1 ≤ n) :
    next_multiple_of_n x n < x + n := by
  unfold next_multiple_of_n
  have h1 := Nat.div_add_mod (x + n - 1) n
  have h3 : (x + n - 1) / n * n = n * ((x + n - 1) / n) := by ring
  omega

theorem next_multiple_of_n_dvd (x n : ℕ) : n ∣ next_multiple_of_n x n :=
  dvd_mul_left n ((x + n - 1) / n)

theorem next_multiple_of_n_div (x n : ℕ) (hn : 1 ≤ n) :
    next_multiple_of_n x n / n = (x + n - 1) / n := by
  unfold next_multiple_of_n
  exact Nat.mul_div_cancel _ (by omega)

theorem next_multiple_of_n_zero (n : ℕ) (hn : 1 ≤ n) :
    next_multiple_of_n 0 n = 0 := by
  unfold next_multiple_of_n
  have h : (0 + n - 1) / n = 0 := Nat.div_eq_of_lt (by omega)
  rw [h, Nat.zero_mul]

theorem next_multiple_of_n_pos (x n : ℕ) (hx : 1 ≤ x) (hn : 1 ≤ n) :
    1 ≤ next_multiple_of_n x n := le_trans hx (next_multiple_of_n_ge x n hn)

/-! ### The device kernel (`src/kernels.rs`), sequentialised

The per-measure cost body is abstracted as a function of the two series
buffers (with their per-pair offsets already applied), the cell
coordinates `i, j`, and the three neighbour cells `x, y, z` — exactly
the data the generated kernel bodies receive. -/

/-- The shape of a per-measure cell-update body. -/
def CostF (α : Type) : Type :=
  (ℕ → α) → (ℕ → α) → ℕ → ℕ → α → α → α → α

variable {α : Type} [Zero α]

/-- One lane `w` of one anti-diagonal step of `warp_kernel_inner`:
if `k = warp * 2 + s ≤ e` the lane reads `x, y, z` at ring offsets
`k - 1, k, k + 1`, evaluates the cost body at cell
`(i - warp, j + warp)`, and writes the result at ring offset `k`;
otherwise it does nothing. -/
def laneWrite (f : CostF α) (aF bF : ℕ → α) (doff mask : ℕ) (i j : ℕ)
    (s e : ℤ) (diag : ℕ → α) (w : ℕ) : ℕ → α :=
  let k : ℤ := (w : ℤ) * 2 + s
  if k ≤ e then
    let x := diag (slotIdx doff mask (k - 1))
    let y := diag (slotIdx doff mask k)
    let z := diag (slotIdx doff mask (k + 1))
    Function.update diag (slotIdx doff mask k) (f aF bF (i - w) (j + w) x y z)
  else diag

/-- All `W` lanes of one anti-diagonal step, folded in lane order
(sound for the lockstep source because in-flight writes and reads of one
step occupy distinct ring slots; see the ring-addressing theorem). -/
def lanesFold (f : CostF α) (aF bF : ℕ → α) (doff mask W : ℕ) (i j : ℕ)
    (s e : ℤ) (diag : ℕ → α) : ℕ → α :=
  (List.range W).foldl (laneWrite f aF bF doff mask i j s e) diag

/-- The loop `for d in 2..diag_count` of `warp_kernel_inner`, with the
register updates `i += 1; s -= 1; e += 1` while `d ≤ W` and
`j += 1; s += 1; e -= 1` afterwards.  `n` is the remaining iteration
count. -/
def innerSteps (f : CostF α) (aF bF : ℕ → α) (doff mask W : ℕ) :
    ℕ → ℕ → ℕ → ℕ → ℤ → ℤ → (ℕ → α) → ℕ → α
  | 0, _, _, _, _, _, diag => diag
  | n + 1, d, i, j, s, e, diag =>
    let diag2 := lanesFold f aF bF doff mask W i j s e diag
    if d ≤ W then innerSteps f aF bF doff mask W n (d + 1) (i + 1) j (s - 1) (e + 1) diag2
    else innerSteps f aF bF doff mask W n (d + 1) i (j + 1) (s + 1) (e - 1) diag2

/-- `warp_kernel_inner` (`src/kernels.rs`): runs the anti-diagonal loop
`for d in 2..diag_count` starting from `i = a_start`, `j = b_start`,
`s = e = diag_mid`.  (The `d_offset = row * W` argument of the source is
only passed to the ignored `_diag_row` parameter of the ring accessors
and is omitted.) -/
def warp_kernel_inner (f : CostF α) (aF bF : ℕ → α) (doff mask W : ℕ)
    (a_start b_start : ℕ) (diag_mid : ℤ) (diag_count : ℕ)
    (diag : ℕ → α) : ℕ → α :=
  innerSteps f aF bF doff mask W (diag_count - 2) 2 a_start b_start
    diag_mid diag_mid diag

/-- The body of `warp_kernel` (`src/kernels.rs`) for one diamond
`did < diamonds_count` (the gate `diamond_id >= diamonds_count` is
handled by the dispatch fold ranging over `diamonds_count`): computes
the per-diamond starts and diagonal extent and runs the inner kernel.
`u64` subtractions are modelled by truncated `Nat` subtraction; the
scheduler-safety theorem shows they never underflow for
scheduler-produced arguments. -/
def run_diamond (f : CostF α) (W : ℕ) (first_coord : ℤ) (_row : ℕ)
    (a_start b_start a_len b_len doff dlen : ℕ) (aF bF : ℕ → α)
    (did : ℕ) (diag : ℕ → α) : ℕ → α :=
  let diag_start : ℤ := first_coord + ((did * W : ℕ) : ℤ) * 2
  let d_a_start := a_start - did * W
  let d_b_start := b_start + did * W
  let alen := a_len - d_a_start
  let blen := b_len - d_b_start
  warp_kernel_inner f aF bF doff (dlen - 1) W d_a_start d_b_start
    (diag_start + (W : ℤ)) (min (W * 2 + 1) (alen + blen + 1)) diag

/-- One dispatch of the `single_call` entry point: the
`diamonds_count * W` threads are grouped into diamonds
`did < diamonds_count`; threads with `diamond_id ≥ diamonds_count` do
not occur because the dispatch size `diamonds_count * W` is an exact
multiple of the workgroup size `W`. -/
def dispatch_pair (f : CostF α) (W : ℕ) (first_coord : ℤ) (row : ℕ)
    (dc a_start b_start a_len b_len doff dlen : ℕ) (aF bF : ℕ → α)
    (diag : ℕ → α) : ℕ → α :=
  (List.range dc).foldl
    (fun dg did =>
      run_diamond f W first_coord row a_start b_start a_len b_len doff dlen
        aF bF did dg)
    diag

/-- One dispatch of the `batch_call` entry point: global ids
`gid < a_count * b_count * diamonds_count * W` decompose into
`pair_index = gid / (diamonds_count * W)` and an in-pair instance id;
pair `p` addresses `a` at offset `(p / b_count) * padded_a_len`, `b` at
offset `(p % b_count) * padded_b_len`, and the ring diagonal at segment
`p * diagonal_stride` with mask `diagonal_stride - 1`. -/
def dispatch_batch (f : CostF α) (W : ℕ) (first_coord : ℤ) (row : ℕ)
    (dc a_start b_start a_len b_len a_count b_count dstride pa pb : ℕ)
    (aB bB : ℕ → α) (diag : ℕ → α) : ℕ → α :=
  (List.range (a_count * b_count)).foldl
    (fun dg p =>
      dispatch_pair f W first_coord row dc a_start b_start a_len b_len
        (p * dstride) dstride
        (fun t => aB (p / b_count * pa + t)) (fun t => bB (p % b_count * pb + t))
        dg)
    diag

/-! ### The host scheduler (`src/warps.rs`) -/

/-- The mutable row state of the scheduler loop in
`diamond_partitioning_gpu_`. -/
structure SchedState where
  diamonds_count : ℕ
  first_coord : ℤ
  a_start : ℕ
  b_start : ℕ

/-- The row-transition of the scheduler, performed after dispatching
row `i`:  widening while `i < a_diamonds - 1`, plateau while
`i < b_diamonds - 1`, contracting afterwards. -/
def sched_step (W a_diamonds b_diamonds : ℕ) (i : ℕ) (st : SchedState) :
    SchedState :=
  if i < a_diamonds - 1 then
    ⟨st.diamonds_count + 1, st.first_coord - (W : ℤ), st.a_start + W, st.b_start⟩
  else if i < b_diamonds - 1 then
    ⟨st.diamonds_count, st.first_coord + (W : ℤ), st.a_start, st.b_start + W⟩
  else
    ⟨st.diamonds_count - 1, st.first_coord + (W : ℤ), st.a_start, st.b_start + W⟩

/-- The scheduler state before dispatching row `i`, starting from
`diamonds_count = 1`, `first_coord = -W`, `a_start = b_start = 0`. -/
def sched_state (W a_diamonds b_diamonds : ℕ) : ℕ → SchedState
  | 0 => ⟨1, -(W : ℤ), 0, 0⟩
  | i + 1 => sched_step W a_diamonds b_diamonds i (sched_state W a_diamonds b_diamonds i)

/-- The initial diagonal buffer of `diamond_partitioning_gpu_`:
`npairs * L` cells of `init_val`, with cell `p * L` of every pair reset
to `0`.  Modelled as a total map; indices past the buffer are never
read. -/
def initDiag (npairs L : ℕ) (init_val : α) : ℕ → α :=
  fun idx => if idx < npairs * L ∧ idx % L = 0 then 0 else init_val

/-- `diamond_partitioning_gpu_` (`src/warps.rs`): pads the sample
lengths, derives the pair counts from the packed buffer lengths, builds
the initial diagonal, loops the scheduler over all wavefront rows
dispatching the kernel, and extracts the result cell
`diagonal[pair * L + ((b_sample_len - a_sample_len) & (L - 1))]` of
every pair.  Returns `none` where the source panics (division by zero
for an empty padded length; `W = 0` cannot occur for a real device and
would already panic inside `next_multiple_of_n`). -/
def diamond_partitioning_run (f : CostF α) (W a_sample_len b_sample_len : ℕ)
    (a b : List α) (init_val : α) (is_batch : Bool) :
    Option (List (List α)) :=
  let pa := next_multiple_of_n a_sample_len W
  let pb := next_multiple_of_n b_sample_len W
  if W = 0 ∨ pa = 0 ∨ pb = 0 then none
  else
    let a_count := a.length / pa
    let b_count := b.length / pb
    let L := compute_diag_len a_sample_len W
    let a_diamonds := div_ceil pa W
    let b_diamonds := div_ceil pb W
    let rows_count := div_ceil (pa + pb) W - 1
    let aB : ℕ → α := fun t => a.getD t 0
    let bB : ℕ → α := fun t => b.getD t 0
    let final := (List.range rows_count).foldl
      (fun dg i =>
        let st := sched_state W a_diamonds b_diamonds i
        if is_batch then
          dispatch_batch f W st.first_coord i st.diamonds_count st.a_start
            st.b_start a_sample_len b_sample_len a_count b_count L pa pb aB bB dg
        else
          dispatch_pair f W st.first_coord i st.diamonds_count st.a_start
            st.b_start a_sample_len b_sample_len 0 (a_count * b_count * L) aB bB dg)
      (initDiag (a_count * b_count) L init_val)
    let cx : ℤ := (b_sample_len : ℤ) - (a_sample_len : ℤ)
    some ((List.range a_count).map (fun i => (List.range b_count).map (fun j =>
      final (slotIdx ((i * b_count + j) * L) (L - 1) cx))))

/-! ### Batch packing and the outer batching loop (`src/warps.rs`) -/

/-- `MultiBatchMode::get_sample_length`: the length of the first series
(`0` for an empty collection). -/
def sample_length_multi (input : List (List α)) : ℕ := (input.headD []).length

/-- An indexed store into a list: `none` models the Rust
index-out-of-bounds panic. -/
def listSet (l : List α) (idx : ℕ) (v : α) : Option (List α) :=
  if idx < l.length then some (l.set idx v) else none

/-- `MultiBatchMode::build_padded`: a zeroed buffer of
`count * padded_len` cells, filled with
`padded[i * padded_len + j] = input[i][j]` for every series `i` and
position `j < input[i].len()`.  A write past the buffer end (a series
longer than the buffer allows) is the Rust panic, modelled as `none`. -/
def build_padded_multi (input : List (List α)) (pad_stride : ℕ) :
    Option (List α) :=
  let spl := next_multiple_of_n (sample_length_multi input) pad_stride
  (List.range input.length).foldlM
    (fun buf i =>
      (List.range (input.getD i []).length).foldlM
        (fun buf2 j => listSet buf2 (i * spl + j) ((input.getD i []).getD j 0))
        buf)
    (List.replicate (input.length * spl) (0 : α))

/-- `SingleBatchMode::build_padded`: a zeroed buffer of `padded_len`
cells with the series copied into its prefix. -/
def build_padded_single (input : List α) (pad_stride : ℕ) : List α :=
  (List.range (next_multiple_of_n input.length pad_stride)).map
    (fun t => input.getD t 0)

/-- The A-sub-batch bound computed by `diamond_partitioning_gpu`:
`max_storage_buffer_range / (diag_len * b_samples_count)` — a quotient
of element counts, with no `sizeof` factor in the source. -/
def max_a_batch_size (max_buffer_size diag_len b_samples : ℕ) : ℕ :=
  max_buffer_size / (diag_len * b_samples)

/-- The clamped A-sub-batch size:
`max_a_batch_size.min(a_samples).max(1)`. -/
def a_batch_size (max_buffer_size diag_len b_samples a_samples : ℕ) : ℕ :=
  max (min (max_a_batch_size max_buffer_size diag_len b_samples) a_samples) 1

/-- The `while start < a_len` loop of `diamond_partitioning_gpu`
(batch mode): takes the next `min(a_batch, remaining)` series of `a`,
packs them and the whole of `b`, and runs the core engine; one engine
result matrix per chunk.  `fuel` bounds the iteration count
(`fuel = a.length` suffices whenever `a_batch ≥ 1`, which the clamp
guarantees); exhausted fuel with work remaining is `none`. -/
def chunkRuns (f : CostF α) (W : ℕ) (aAll b : List (List α))
    (a_batch : ℕ) (init_val : α) :
    ℕ → ℕ → Option (List (List (List α)))
  | 0, start => if start < aAll.length then none else some []
  | fuel + 1, start =>
    if start < aAll.length then
      let len := min a_batch (aAll.length - start)
      let aChunk := (aAll.drop start).take len
      match build_padded_multi aChunk W, build_padded_multi b W with
      | some a_padded, some b_padded =>
        match diamond_partitioning_run f W (sample_length_multi aChunk)
            (sample_length_multi b) a_padded b_padded init_val true with
        | some r =>
          match chunkRuns f W aAll b a_batch init_val fuel (start + len) with
          | some rest => some (r :: rest)
          | none => none
        | none => none
      | _, _ => none
    else some []

/-- `diamond_partitioning_gpu` (`src/warps.rs`) instantiated at
`MultiBatchMode`: sorts the collections so the one with the shorter
first-series length plays the `a` role, computes the clamped A-batch
size from the device storage-buffer limit, and concatenates the chunk
results row-wise (`join_results` = flatten).  `none` models the Rust
panics (division by zero when `b` is empty, `W = 0`, packing
out-of-bounds). -/
def diamond_partitioning_gpu_multi (f : CostF α) (W max_buffer_size : ℕ)
    (a b : List (List α)) (init_val : α) : Option (List (List α)) :=
  let p := if sample_length_multi a > sample_length_multi b then (b, a) else (a, b)
  let a2 := p.1
  let b2 := p.2
  let L := compute_diag_len (sample_length_multi a2) W
  if W = 0 ∨ b2.length = 0 then none
  else
    let ab := a_batch_size max_buffer_size L b2.length a2.length
    match chunkRuns f W a2 b2 ab init_val a2.length 0 with
    | some runs => some runs.flatten
    | none => none

/-- `diamond_partitioning_gpu` instantiated at `SingleBatchMode`: both
sample counts are `1`, so the clamped batch size is `1` and the batching
loop performs exactly one iteration over the whole (sorted) inputs; the
scalar return is the single `set_return` value, i.e. entry `(0,0)` of
the core result. -/
def diamond_partitioning_gpu_single (f : CostF α) (W _max_buffer_size : ℕ)
    (a b : List α) (init_val : α) : Option α :=
  let p := if a.length > b.length then (b, a) else (a, b)
  let a2 := p.1
  let b2 := p.2
  if W = 0 then none
  else
    match diamond_partitioning_run f W a2.length b2.length
        (build_padded_single a2 W) (build_padded_single b2 W) init_val false with
    | some r => some ((r.getD 0 []).getD 0 0)
    | none => none


/-! ### The MSM recurrence (`src/kernels.rs`) -/

/-- `MSM_C` (`src/kernels.rs`). -/
def MSM_C : ℚ := 1

/-- `msm_cost_function` (`src/kernels.rs`):
`MSM_C + (y.min(z) - x).max(x - y.max(z)).max(0.0)`. -/
def msm_cost_function (x y z : ℚ) : ℚ :=
  MSM_C + max (max (min y z - x) (x - max y z)) 0

/-- The `msm_distance` kernel body (`src/kernels.rs`), as a cost
function over the offset-adjusted series buffers:
`(y + |a i - b j|).min(z + C(a i, a (i-1) or 0, b j)).min(x + C(b j, a i, b (j-1) or 0))`. -/
def msm_distance : CostF ℚ := fun a b i j x y z =>
  min
    (min (y + |a i - b j|)
      (z + msm_cost_function (a i) (if i = 0 then 0 else a (i - 1)) (b j)))
    (x + msm_cost_function (b j) (a i) (if j = 0 then 0 else b (j - 1)))

/-- The cost helper as the spec writes it:
`C(x,y,z) = 1 + max(0, min(y,z) − x, x − max(y,z))`. -/
def msm_cost_spec (x y z : ℚ) : ℚ :=
  1 + max 0 (max (min y z - x) (x - max y z))

/-! ### C2: the A-sub-batch bound as the spec claims it -/

/-- The A-sub-batch bound as the spec states it, with a
`sizeof(float) = 4` bytes-per-element factor in the divisor:
`⌊max_buffer_bytes / (L · b_count · 4)⌋`. -/
def claimed_max_a_batch (max_buffer_bytes diag_len b_samples : ℕ) : ℕ :=
  max_buffer_bytes / (diag_len * b_samples * 4)

/-! ### Ring-addressing facts (towards C4) -/

theorem compute_diag_len_eq (n W : ℕ) :
    compute_diag_len n W = 2 * next_power_of_two (next_multiple_of_n n W + 1) := rfl

theorem compute_diag_len_pow2 (n W : ℕ) : ∃ m, compute_diag_len n W = 2 ^ m := by
  obtain ⟨m, hm⟩ := next_power_of_two_is_pow2 (next_multiple_of_n n W + 1)
  exact ⟨m + 1, by rw [compute_diag_len, hm]; ring⟩

theorem compute_diag_len_ge (n W : ℕ) :
    2 * (next_multiple_of_n n W + 1) ≤ compute_diag_len n W := by
  have := next_power_of_two_ge (next_multiple_of_n n W + 1)
  unfold compute_diag_len
  omega

/-- For a power-of-two ring length `L = 2^m` with `m ≤ 64`, the
source's `(k as usize) & (L - 1)` is exactly `k mod L`. -/
theorem slotIdx_mod (doff m : ℕ) (hm : m ≤ 64) (k : ℤ) :
    slotIdx doff (2 ^ m - 1) k = doff + (k % (2 ^ m : ℤ)).toNat := by
  unfold slotIdx
  congr 1
  rw [Nat.and_pow_two_sub_one_eq_mod]
  have h64 : (0:ℤ) ≤ k % 2 ^ 64 := Int.emod_nonneg k (by positivity)
  have hmod : ((k % (2:ℤ) ^ 64).toNat : ℤ) = k % 2 ^ 64 := Int.toNat_of_nonneg h64
  have hdvd : ((2:ℤ) ^ m) ∣ 2 ^ 64 := pow_dvd_pow 2 hm
  have hmm : (k % 2 ^ 64) % (2 ^ m : ℤ) = k % 2 ^ m := Int.emod_emod_of_dvd k hdvd
  have key : k % (2 ^ m : ℤ) = (((k % (2:ℤ) ^ 64).toNat % 2 ^ m : ℕ) : ℤ) := by
    rw [Int.natCast_mod, hmod, ← hmm]
    norm_cast
  rw [key, Int.toNat_natCast]

theorem slot_lt_of_mask (doff m : ℕ) (hm : m ≤ 64) (k : ℤ) :
    slotIdx doff (2 ^ m - 1) k < doff + 2 ^ m := by
  rw [slotIdx_mod doff m hm k]
  have h1 : k % (2 ^ m : ℤ) < 2 ^ m := Int.emod_lt_of_pos k (by positivity)
  have h0 : (0:ℤ) ≤ k % 2 ^ m := Int.emod_nonneg k (by positivity)
  have h2 : ((2:ℤ) ^ m) = ((2 ^ m : ℕ) : ℤ) := by norm_cast
  have : (k % (2 ^ m : ℤ)).toNat < 2 ^ m := by
    rw [h2] at h1
    omega
  omega

theorem slot_same_residue (doff m : ℕ) (hm : m ≤ 64) (k1 k2 : ℤ)
    (h : slotIdx doff (2 ^ m - 1) k1 = slotIdx doff (2 ^ m - 1) k2) :
    ((2:ℤ) ^ m) ∣ k1 - k2 := by
  rw [slotIdx_mod doff m hm, slotIdx_mod doff m hm] at h
  have h1 : (0:ℤ) ≤ k1 % 2 ^ m := Int.emod_nonneg _ (by positivity)
  have h2 : (0:ℤ) ≤ k2 % 2 ^ m := Int.emod_nonneg _ (by positivity)
  have heq : k1 % (2 ^ m : ℤ) = k2 % 2 ^ m := by omega
  have h0 : (k1 - k2) % (2 ^ m : ℤ) = 0 := by
    rw [Int.sub_emod, heq, sub_self, Int.zero_emod]
  exact Int.dvd_of_emod_eq_zero h0

/-- Distinct ring offsets closer than `L` apart occupy distinct slots. -/
theorem slot_ne_of_window (doff m : ℕ) (hm : m ≤ 64) (k1 k2 : ℤ)
    (hne : k1 ≠ k2) (hw : (k1 - k2).natAbs < 2 ^ m) :
    slotIdx doff (2 ^ m - 1) k1 ≠ slotIdx doff (2 ^ m - 1) k2 := by
  intro h
  have hdvd := slot_same_residue doff m hm k1 k2 h
  have hdvdn : ((2:ℤ) ^ m).natAbs ∣ (k1 - k2).natAbs := Int.natAbs_dvd_natAbs.mpr hdvd
  have habs : ((2:ℤ) ^ m).natAbs = 2 ^ m := by
    rw [Int.natAbs_pow]
    rfl
  rw [habs] at hdvdn
  have hpos : 0 < (k1 - k2).natAbs := Int.natAbs_pos.mpr (sub_ne_zero_of_ne hne)
  have := Nat.le_of_dvd hpos hdvdn
  omega

/-- Ring offsets of opposite parity occupy distinct slots (the ring
length is even). -/
theorem slot_ne_of_parity (doff m : ℕ) (hm1 : 1 ≤ m) (hm : m ≤ 64) (k1 k2 : ℤ)
    (hodd : Odd (k1 - k2)) :
    slotIdx doff (2 ^ m - 1) k1 ≠ slotIdx doff (2 ^ m - 1) k2 := by
  intro h
  have hdvd := slot_same_residue doff m hm k1 k2 h
  have h2d : (2:ℤ) ∣ k1 - k2 := dvd_trans (dvd_pow_self 2 (by omega)) hdvd
  rcases hodd with ⟨c, hc⟩
  omega


/-! ### Claim C5: the MSM cell update -/

/-- C5: for every cell `(i,j)` with neighbours `x, y, z`, the MSM cell
update returns
`min(y + |A i − B j|, z + C(A i, A (i−1), B j), x + C(B j, A i, B (j−1)))`
with `C(x,y,z) = 1 + max(0, min(y,z) − x, x − max(y,z))` and the
predecessor samples taken as `0` when `i = 0` or `j = 0`. -/
theorem claim_C5_msm_cell_update :
    (∀ (a b : ℕ → ℚ) (i j : ℕ) (x y z : ℚ),
      msm_distance a b i j x y z =
        min (y + |a i - b j|)
          (min (z + msm_cost_spec (a i) (if i = 0 then 0 else a (i - 1)) (b j))
               (x + msm_cost_spec (b j) (a i) (if j = 0 then 0 else b (j - 1))))) ∧
    (∀ x y z : ℚ, msm_cost_function x y z = msm_cost_spec x y z) := by
  have hC : ∀ x y z : ℚ, msm_cost_function x y z = msm_cost_spec x y z := by
    intro x y z
    unfold msm_cost_function msm_cost_spec MSM_C
    rw [max_comm]
  refine ⟨fun a b i j x y z => ?_, hC⟩
  unfold msm_distance
  rw [hC, hC, min_assoc]

/-! ### Claim C2: the A-sub-batch bound -/

/-- C2 counterexample: the host quotient is
`max_buffer / (L · b_count)` with NO `sizeof(float)` factor; at
`max_buffer = 64`, `L = 8`, `b_count = 2` the code computes `4` while
the claimed formula gives `⌊64 / 64⌋ = 1`. -/
theorem claim_C2_counterexample :
    max_a_batch_size 64 8 2 = 4 ∧ claimed_max_a_batch 64 8 2 = 1 ∧
      max_a_batch_size 64 8 2 ≠ claimed_max_a_batch 64 8 2 := by decide

/-- C2 (amended): the host computes
`max_a_batch = ⌊max_buffer / (L · b_count)⌋` — an element-count
quotient, without the `sizeof(float)` factor — and clamps it to
`[1, a_count]` (the source's `.min(a_count).max(1)` equals the clamp
whenever `a_count ≥ 1`). -/
theorem claim_C2_amended_batch_bound (mb L bc ac : ℕ) (hac : 1 ≤ ac) :
    a_batch_size mb L bc ac = min (max (mb / (L * bc)) 1) ac ∧
    max_a_batch_size mb L bc = mb / (L * bc) ∧
    1 ≤ a_batch_size mb L bc ac ∧ a_batch_size mb L bc ac ≤ ac := by
  unfold a_batch_size max_a_batch_size
  omega

theorem claim_C2_amended_batch_bound_witness :
    1 ≤ 3 ∧
    (a_batch_size 64 8 2 3 = min (max (64 / (8 * 2)) 1) 3 ∧
     max_a_batch_size 64 8 2 = 64 / (8 * 2) ∧
     1 ≤ a_batch_size 64 8 2 3 ∧ a_batch_size 64 8 2 3 ≤ 3) :=
  ⟨by decide, claim_C2_amended_batch_bound 64 8 2 3 (by decide)⟩

/-! ### Claim C4: ring length, addressing, and collision freedom -/

/-- C4: for a sample length `n ≥ 1` and warp width `W ≥ 1` (with
realistic size bounds keeping the ring below `2^64`), the ring length
`L = compute_diag_len n W` equals `2 · next_power_of_two(padded + 1)`,
is a power of two, and is at least `2 · (padded + 1)`; a cell at ring
offset `k` is addressed at slot `k & (L−1)` (i.e. `k mod L`) inside its
pair segment; a write at offset `k` never collides with the
still-needed read targets `k − 1, k + 1` of the previous diagonal, and
no two distinct in-flight offsets of the active window (offset
distance at most `2·padded + 1 < L`) share a ring slot. -/
theorem claim_C4_ring_safety (n W : ℕ) (hn : 1 ≤ n) (hW : 1 ≤ W)
    (hnb : n ≤ 2 ^ 61) (hWb : W ≤ 2 ^ 61) :
    ∃ m, compute_diag_len n W = 2 ^ m ∧ 1 ≤ m ∧ m ≤ 64 ∧
      compute_diag_len n W =
        2 * next_power_of_two (next_multiple_of_n n W + 1) ∧
      2 * (next_multiple_of_n n W + 1) ≤ compute_diag_len n W ∧
      2 * next_multiple_of_n n W + 1 < compute_diag_len n W ∧
      (∀ (doff : ℕ) (k : ℤ),
        slotIdx doff (compute_diag_len n W - 1) k =
          doff + (k % (compute_diag_len n W : ℤ)).toNat ∧
        slotIdx doff (compute_diag_len n W - 1) k <
          doff + compute_diag_len n W) ∧
      (∀ (doff : ℕ) (k : ℤ),
        slotIdx doff (compute_diag_len n W - 1) k ≠
          slotIdx doff (compute_diag_len n W - 1) (k - 1) ∧
        slotIdx doff (compute_diag_len n W - 1) k ≠
          slotIdx doff (compute_diag_len n W - 1) (k + 1)) ∧
      (∀ (doff : ℕ) (k1 k2 : ℤ), k1 ≠ k2 →
        (k1 - k2).natAbs ≤ 2 * next_multiple_of_n n W + 1 →
        slotIdx doff (compute_diag_len n W - 1) k1 ≠
          slotIdx doff (compute_diag_len n W - 1) k2) := by
  obtain ⟨m, hm⟩ := compute_diag_len_pow2 n W
  have hge := compute_diag_len_ge n W
  have hpa1 : 1 ≤ next_multiple_of_n n W := next_multiple_of_n_pos n W hn hW
  have hm1 : 1 ≤ m := by
    rcases Nat.eq_zero_or_pos m with h0 | h; · exfalso; rw [h0] at hm; omega
    · omega
  have hpaub : next_multiple_of_n n W + 1 ≤ 2 ^ 62 := by
    have := next_multiple_of_n_lt n W hW
    have h62 : n + W ≤ 2 ^ 62 := by
      have : (2:ℕ) ^ 62 = 2 ^ 61 + 2 ^ 61 := by norm_num
      omega
    omega
  have hLub : compute_diag_len n W ≤ 2 ^ 63 := by
    have hnp := next_power_of_two_le_pow (next_multiple_of_n n W + 1) 62 hpaub
    unfold compute_diag_len
    have : (2:ℕ) ^ 63 = 2 * 2 ^ 62 := by norm_num
    omega
  have hm64 : m ≤ 64 := by
    by_contra hc
    have : (2:ℕ) ^ 65 ≤ 2 ^ m := Nat.pow_le_pow_right (by omega) (by omega)
    have h65 : (2:ℕ) ^ 63 < 2 ^ 65 := by norm_num
    omega
  have hmask : compute_diag_len n W - 1 = 2 ^ m - 1 := by omega
  refine ⟨m, hm, hm1, hm64, rfl, hge, by omega, ?_, ?_, ?_⟩
  · intro doff k
    rw [hmask, ← hm]
    constructor
    · rw [hm]
      have hc : (((2:ℕ) ^ m : ℕ) : ℤ) = (2:ℤ) ^ m := by norm_cast
      rw [hc]
      exact slotIdx_mod doff m hm64 k
    · rw [hm]; exact slot_lt_of_mask doff m hm64 k
  · intro doff k
    rw [hmask]
    constructor
    · exact slot_ne_of_parity doff m hm1 hm64 k (k - 1) ⟨0, by ring⟩
    · exact slot_ne_of_parity doff m hm1 hm64 k (k + 1) ⟨-1, by ring⟩
  · intro doff k1 k2 hne hwin
    rw [hmask]
    refine slot_ne_of_window doff m hm64 k1 k2 hne ?_
    omega

theorem claim_C4_ring_safety_witness :
    (1 ≤ 3 ∧ 1 ≤ 4 ∧ 3 ≤ 2 ^ 61 ∧ 4 ≤ 2 ^ 61) ∧
    (∃ m, compute_diag_len 3 4 = 2 ^ m ∧ 1 ≤ m ∧ m ≤ 64 ∧
      compute_diag_len 3 4 = 2 * next_power_of_two (next_multiple_of_n 3 4 + 1) ∧
      2 * (next_multiple_of_n 3 4 + 1) ≤ compute_diag_len 3 4 ∧
      2 * next_multiple_of_n 3 4 + 1 < compute_diag_len 3 4 ∧
      (∀ (doff : ℕ) (k : ℤ),
        slotIdx doff (compute_diag_len 3 4 - 1) k =
          doff + (k % (compute_diag_len 3 4 : ℤ)).toNat ∧
        slotIdx doff (compute_diag_len 3 4 - 1) k < doff + compute_diag_len 3 4) ∧
      (∀ (doff : ℕ) (k : ℤ),
        slotIdx doff (compute_diag_len 3 4 - 1) k ≠
          slotIdx doff (compute_diag_len 3 4 - 1) (k - 1) ∧
        slotIdx doff (compute_diag_len 3 4 - 1) k ≠
          slotIdx doff (compute_diag_len 3 4 - 1) (k + 1)) ∧
      (∀ (doff : ℕ) (k1 k2 : ℤ), k1 ≠ k2 →
        (k1 - k2).natAbs ≤ 2 * next_multiple_of_n 3 4 + 1 →
        slotIdx doff (compute_diag_len 3 4 - 1) k1 ≠
          slotIdx doff (compute_diag_len 3 4 - 1) k2)) :=
  ⟨⟨by decide, by decide, by norm_num, by norm_num⟩,
   claim_C4_ring_safety 3 4 (by decide) (by decide) (by norm_num) (by norm_num)⟩


/-! ### Scheduler closed forms (towards C6, C8, C9) -/

theorem sched_a_start (W A B i : ℕ) :
    (sched_state W A B i).a_start = W * min i (A - 1) := by
  induction i with
  | zero => simp [sched_state]
  | succ n ih =>
    rw [sched_state, sched_step]
    split_ifs with h1 h2
    · dsimp only
      rw [ih, Nat.min_eq_left (by omega), Nat.min_eq_left (by omega)]
      ring
    · dsimp only
      rw [ih, Nat.min_eq_right (by omega), Nat.min_eq_right (by omega)]
    · dsimp only
      rw [ih, Nat.min_eq_right (by omega), Nat.min_eq_right (by omega)]

theorem sched_b_start (W A B i : ℕ) :
    (sched_state W A B i).b_start = W * (i - min i (A - 1)) := by
  induction i with
  | zero => simp [sched_state]
  | succ n ih =>
    rw [sched_state, sched_step]
    split_ifs with h1 h2
    · dsimp only
      rw [ih, Nat.min_eq_left (by omega), Nat.min_eq_left (by omega),
        Nat.sub_self, Nat.sub_self]
    · dsimp only
      rw [ih, Nat.min_eq_right (by omega), Nat.min_eq_right (by omega)]
      have h3 : n + 1 - (A - 1) = (n - (A - 1)) + 1 := by omega
      rw [h3, Nat.mul_add, Nat.mul_one]
    · dsimp only
      rw [ih, Nat.min_eq_right (by omega), Nat.min_eq_right (by omega)]
      have h3 : n + 1 - (A - 1) = (n - (A - 1)) + 1 := by omega
      rw [h3, Nat.mul_add, Nat.mul_one]

theorem sched_first_coord (W A B i : ℕ) :
    (sched_state W A B i).first_coord =
      (W : ℤ) * i - 2 * W * min i (A - 1) - W := by
  induction i with
  | zero => simp [sched_state]
  | succ n ih =>
    rw [sched_state, sched_step]
    split_ifs with h1 h2
    · dsimp only
      rw [ih, Nat.min_eq_left (by omega), Nat.min_eq_left (by omega)]
      push_cast
      ring
    · dsimp only
      rw [ih, Nat.min_eq_right (by omega), Nat.min_eq_right (by omega)]
      push_cast
      ring
    · dsimp only
      rw [ih, Nat.min_eq_right (by omega), Nat.min_eq_right (by omega)]
      push_cast
      ring

theorem sched_dc (W A B : ℕ) (hA : 1 ≤ A) (hAB : A ≤ B) (i : ℕ) :
    (sched_state W A B i).diamonds_count =
      min (i + 1) (min A (A + B - 1 - i)) := by
  induction i with
  | zero =>
    simp only [sched_state]
    omega
  | succ n ih =>
    rw [sched_state, sched_step]
    split_ifs with h1 h2
    · dsimp only
      rw [ih]
      omega
    · dsimp only
      rw [ih]
      omega
    · dsimp only
      rw [ih]
      omega


/-! ### Padded-length arithmetic -/

theorem div_ceil_mul (q W : ℕ) (hW : 1 ≤ W) : div_ceil (q * W) W = q := by
  unfold div_ceil
  rw [Nat.add_sub_assoc (by omega), Nat.add_comm,
    Nat.add_mul_div_right _ _ (by omega : 0 < W),
    Nat.div_eq_of_lt (by omega)]
  omega

theorem a_diamonds_mul (x W : ℕ) (hW : 1 ≤ W) :
    div_ceil (next_multiple_of_n x W) W * W = next_multiple_of_n x W := by
  have h : next_multiple_of_n x W = ((x + W - 1) / W) * W := rfl
  rw [h, div_ceil_mul _ _ hW]

theorem next_multiple_mono (x y W : ℕ) (h : x ≤ y) :
    next_multiple_of_n x W ≤ next_multiple_of_n y W :=
  Nat.mul_le_mul_right W (Nat.div_le_div_right (by omega))

theorem div_ceil_pos (x W : ℕ) (hx : 1 ≤ x) (hW : 1 ≤ W) :
    1 ≤ div_ceil x W := by
  unfold div_ceil
  rw [Nat.le_div_iff_mul_le (by omega : 0 < W)]
  omega

theorem rows_count_eq (asl bsl W : ℕ) (hW : 1 ≤ W) :
    div_ceil (next_multiple_of_n asl W + next_multiple_of_n bsl W) W =
      div_ceil (next_multiple_of_n asl W) W +
        div_ceil (next_multiple_of_n bsl W) W := by
  have ha := a_diamonds_mul asl W hW
  have hb := a_diamonds_mul bsl W hW
  calc div_ceil (next_multiple_of_n asl W + next_multiple_of_n bsl W) W
      = div_ceil ((div_ceil (next_multiple_of_n asl W) W +
          div_ceil (next_multiple_of_n bsl W) W) * W) W := by
        rw [Nat.add_mul, ha, hb]
    _ = _ := div_ceil_mul _ _ hW

/-! ### Claim C6: the scheduler row loop -/

/-- C6: with `padded_a_len ≤ padded_b_len` the scheduler issues exactly
`⌈(padded_a_len + padded_b_len)/W⌉ − 1 = a_diamonds + b_diamonds − 1`
dispatches, starts from `⟨1, −W, 0, 0⟩`, and after dispatching row `i`
performs exactly the widening / plateau / contracting update selected
by `i < a_diamonds − 1` and `i < b_diamonds − 1`. -/
theorem claim_C6_scheduler_loop (asl bsl W : ℕ) (hW : 1 ≤ W)
    (_h1 : 1 ≤ asl) (_hab : asl ≤ bsl) :
    div_ceil (next_multiple_of_n asl W + next_multiple_of_n bsl W) W - 1 =
      div_ceil (next_multiple_of_n asl W) W +
        div_ceil (next_multiple_of_n bsl W) W - 1 ∧
    sched_state W (div_ceil (next_multiple_of_n asl W) W)
        (div_ceil (next_multiple_of_n bsl W) W) 0 =
      ⟨1, -(W : ℤ), 0, 0⟩ ∧
    (∀ A B i : ℕ,
      sched_state W A B (i + 1) =
        if i < A - 1 then
          ⟨(sched_state W A B i).diamonds_count + 1,
           (sched_state W A B i).first_coord - (W : ℤ),
           (sched_state W A B i).a_start + W,
           (sched_state W A B i).b_start⟩
        else if i < B - 1 then
          ⟨(sched_state W A B i).diamonds_count,
           (sched_state W A B i).first_coord + (W : ℤ),
           (sched_state W A B i).a_start,
           (sched_state W A B i).b_start + W⟩
        else
          ⟨(sched_state W A B i).diamonds_count - 1,
           (sched_state W A B i).first_coord + (W : ℤ),
           (sched_state W A B i).a_start,
           (sched_state W A B i).b_start + W⟩) := by
  refine ⟨by rw [rows_count_eq asl bsl W hW], rfl, ?_⟩
  intro A B i
  rw [sched_state, sched_step]

theorem claim_C6_scheduler_loop_witness :
    (1 ≤ 2 ∧ 1 ≤ 3 ∧ 3 ≤ 5) ∧
    (div_ceil (next_multiple_of_n 3 2 + next_multiple_of_n 5 2) 2 - 1 =
      div_ceil (next_multiple_of_n 3 2) 2 + div_ceil (next_multiple_of_n 5 2) 2 - 1 ∧
    sched_state 2 (div_ceil (next_multiple_of_n 3 2) 2)
        (div_ceil (next_multiple_of_n 5 2) 2) 0 = ⟨1, -(2 : ℤ), 0, 0⟩ ∧
    (∀ A B i : ℕ,
      sched_state 2 A B (i + 1) =
        if i < A - 1 then
          ⟨(sched_state 2 A B i).diamonds_count + 1,
           (sched_state 2 A B i).first_coord - (2 : ℤ),
           (sched_state 2 A B i).a_start + 2,
           (sched_state 2 A B i).b_start⟩
        else if i < B - 1 then
          ⟨(sched_state 2 A B i).diamonds_count,
           (sched_state 2 A B i).first_coord + (2 : ℤ),
           (sched_state 2 A B i).a_start,
           (sched_state 2 A B i).b_start + 2⟩
        else
          ⟨(sched_state 2 A B i).diamonds_count - 1,
           (sched_state 2 A B i).first_coord + (2 : ℤ),
           (sched_state 2 A B i).a_start,
           (sched_state 2 A B i).b_start + 2⟩)) :=
  ⟨⟨by decide, by decide, by decide⟩,
   claim_C6_scheduler_loop 3 5 2 (by decide) (by decide) (by decide)⟩

/-! ### Claim C8: diamonds-count closed form and full coverage -/

theorem gauss_succ (n : ℕ) : (∑ i ∈ Finset.range n, (i + 1)) * 2 = n * (n + 1) := by
  induction n with
  | zero => simp
  | succ m ih =>
    rw [Finset.sum_range_succ, Nat.add_mul, ih]
    ring

theorem gauss_rev (n : ℕ) : (∑ t ∈ Finset.range n, (n - t)) * 2 = n * (n + 1) := by
  have h : ∀ t ∈ Finset.range n, n - t = (n - 1 - t) + 1 := by
    intro t ht
    rw [Finset.mem_range] at ht
    omega
  rw [Finset.sum_congr rfl h]
  have h2 : (∑ t ∈ Finset.range n, (n - 1 - t + 1)) =
      ∑ t ∈ Finset.range n, ((fun u => u + 1) ((n - 1) - t)) := rfl
  rw [h2, Finset.sum_range_reflect (fun u => u + 1) n]
  exact gauss_succ n

theorem dc_sum (A B : ℕ) (hA : 1 ≤ A) (hAB : A ≤ B) :
    ∑ i ∈ Finset.range (A + B - 1), min (i + 1) (min A (A + B - 1 - i)) =
      A * B := by
  obtain ⟨a, rfl⟩ : ∃ a, A = a + 1 := ⟨A - 1, by omega⟩
  obtain ⟨b, rfl⟩ : ∃ b, B = (a + 1) + b := ⟨B - (a + 1), by omega⟩
  set R := (a + 1) + ((a + 1) + b) - 1 with hR
  have hRe : R = 2 * a + b + 1 := by omega
  have hsplit1 : (0:ℕ) ≤ a := Nat.zero_le a
  have hsplit2 : a ≤ a + b := by omega
  have hsplit3 : a + b ≤ R := by omega
  rw [Finset.range_eq_Ico]
  rw [← Finset.sum_Ico_consecutive _ (Nat.zero_le (a + b)) hsplit3]
  rw [← Finset.sum_Ico_consecutive _ (Nat.zero_le a) hsplit2]
  have e1 : ∑ i ∈ Finset.Ico 0 a, min (i + 1) (min (a + 1) (R - i)) =
      ∑ i ∈ Finset.range a, (i + 1) := by
    rw [← Finset.range_eq_Ico]
    refine Finset.sum_congr rfl ?_
    intro i hi
    rw [Finset.mem_range] at hi
    omega
  have e2 : ∑ i ∈ Finset.Ico a (a + b), min (i + 1) (min (a + 1) (R - i)) =
      b * (a + 1) := by
    have hconst : ∀ i ∈ Finset.Ico a (a + b),
        min (i + 1) (min (a + 1) (R - i)) = a + 1 := by
      intro i hi
      rw [Finset.mem_Ico] at hi
      omega
    rw [Finset.sum_congr rfl hconst, Finset.sum_const, Nat.card_Ico]
    simp [Nat.mul_comm]
  have e3 : ∑ i ∈ Finset.Ico (a + b) R, min (i + 1) (min (a + 1) (R - i)) =
      ∑ t ∈ Finset.range (a + 1), ((a + 1) - t) := by
    rw [Finset.sum_Ico_eq_sum_range]
    have hcard : R - (a + b) = a + 1 := by omega
    rw [hcard]
    refine Finset.sum_congr rfl ?_
    intro t ht
    rw [Finset.mem_range] at ht
    omega
  rw [e1, e2, e3]
  have g1 := gauss_succ a
  have g2 := gauss_rev (a + 1)
  have e4 : a * (a + 1) = a * a + a := by ring
  have e5 : (a + 1) * (a + 1 + 1) = a * a + 3 * a + 2 := by ring
  have e6 : (a + 1) * (a + 1 + b) = a * a + 2 * a + 1 + a * b + b := by ring
  have e7 : b * (a + 1) = a * b + b := by ring
  omega

/-- C8: at every dispatched row `i < rows_count` the scheduler passes
`diamonds_count = min(i+1, a_diamonds, rows_count − i)` to the
dispatch, this count is at least `1`, and the counts over all rows sum
to `a_diamonds · b_diamonds`, so every diamond tile is dispatched
exactly once. -/
theorem claim_C8_diamond_coverage (asl bsl W : ℕ) (hW : 1 ≤ W)
    (h1 : 1 ≤ asl) (hab : asl ≤ bsl) :
    (∀ i : ℕ,
      i < div_ceil (next_multiple_of_n asl W) W +
            div_ceil (next_multiple_of_n bsl W) W - 1 →
      (sched_state W (div_ceil (next_multiple_of_n asl W) W)
          (div_ceil (next_multiple_of_n bsl W) W) i).diamonds_count =
        min (i + 1) (min (div_ceil (next_multiple_of_n asl W) W)
          (div_ceil (next_multiple_of_n asl W) W +
            div_ceil (next_multiple_of_n bsl W) W - 1 - i)) ∧
      1 ≤ (sched_state W (div_ceil (next_multiple_of_n asl W) W)
          (div_ceil (next_multiple_of_n bsl W) W) i).diamonds_count) ∧
    (∑ i ∈ Finset.range (div_ceil (next_multiple_of_n asl W) W +
        div_ceil (next_multiple_of_n bsl W) W - 1),
      (sched_state W (div_ceil (next_multiple_of_n asl W) W)
          (div_ceil (next_multiple_of_n bsl W) W) i).diamonds_count) =
      div_ceil (next_multiple_of_n asl W) W *
        div_ceil (next_multiple_of_n bsl W) W := by
  set A := div_ceil (next_multiple_of_n asl W) W with hA
  set B := div_ceil (next_multiple_of_n bsl W) W with hB
  have hA1 : 1 ≤ A := div_ceil_pos _ _ (next_multiple_of_n_pos asl W h1 hW) hW
  have hAB : A ≤ B := Nat.div_le_div_right
    (by have := next_multiple_mono asl bsl W hab; omega)
  have hdc := sched_dc W A B hA1 hAB
  constructor
  · intro i hi
    refine ⟨hdc i, ?_⟩
    rw [hdc i]
    omega
  · rw [Finset.sum_congr rfl (fun i _ => hdc i)]
    exact dc_sum A B hA1 hAB

theorem claim_C8_diamond_coverage_witness :
    (1 ≤ 2 ∧ 1 ≤ 3 ∧ 3 ≤ 5) ∧
    ((∀ i : ℕ,
      i < div_ceil (next_multiple_of_n 3 2) 2 +
            div_ceil (next_multiple_of_n 5 2) 2 - 1 →
      (sched_state 2 (div_ceil (next_multiple_of_n 3 2) 2)
          (div_ceil (next_multiple_of_n 5 2) 2) i).diamonds_count =
        min (i + 1) (min (div_ceil (next_multiple_of_n 3 2) 2)
          (div_ceil (next_multiple_of_n 3 2) 2 +
            div_ceil (next_multiple_of_n 5 2) 2 - 1 - i)) ∧
      1 ≤ (sched_state 2 (div_ceil (next_multiple_of_n 3 2) 2)
          (div_ceil (next_multiple_of_n 5 2) 2) i).diamonds_count) ∧
    (∑ i ∈ Finset.range (div_ceil (next_multiple_of_n 3 2) 2 +
        div_ceil (next_multiple_of_n 5 2) 2 - 1),
      (sched_state 2 (div_ceil (next_multiple_of_n 3 2) 2)
          (div_ceil (next_multiple_of_n 5 2) 2) i).diamonds_count) =
      div_ceil (next_multiple_of_n 3 2) 2 * div_ceil (next_multiple_of_n 5 2) 2) :=
  ⟨⟨by decide, by decide, by decide⟩,
   claim_C8_diamond_coverage 3 5 2 (by decide) (by decide) (by decide)⟩


/-! ### Claim C9: the unsigned kernel subtractions never underflow -/

/-- The per-diamond bounds used both by the no-underflow claim and the
batch/single equivalence: for a scheduler-produced row state and any
gated diamond `did < diamonds_count`, the diamond starts satisfy
`did * W ≤ a_start`, `d_a_start ≤ pa − W` and `d_b_start ≤ pb − W`. -/
theorem diamond_start_bounds (asl bsl W row did : ℕ) (hW : 1 ≤ W)
    (h1 : 1 ≤ asl) (hab : asl ≤ bsl)
    (hdid : did < (sched_state W (div_ceil (next_multiple_of_n asl W) W)
      (div_ceil (next_multiple_of_n bsl W) W) row).diamonds_count) :
    did * W ≤ (sched_state W (div_ceil (next_multiple_of_n asl W) W)
        (div_ceil (next_multiple_of_n bsl W) W) row).a_start ∧
    (sched_state W (div_ceil (next_multiple_of_n asl W) W)
        (div_ceil (next_multiple_of_n bsl W) W) row).a_start - did * W + W ≤
      next_multiple_of_n asl W ∧
    (sched_state W (div_ceil (next_multiple_of_n asl W) W)
        (div_ceil (next_multiple_of_n bsl W) W) row).b_start + did * W + W ≤
      next_multiple_of_n bsl W := by
  set A := div_ceil (next_multiple_of_n asl W) W with hA
  set B := div_ceil (next_multiple_of_n bsl W) W with hB
  have hA1 : 1 ≤ A := div_ceil_pos _ _ (next_multiple_of_n_pos asl W h1 hW) hW
  have hAB : A ≤ B := Nat.div_le_div_right
    (by have := next_multiple_mono asl bsl W hab; omega)
  have hpaA : A * W = next_multiple_of_n asl W := a_diamonds_mul asl W hW
  have hpbB : B * W = next_multiple_of_n bsl W := a_diamonds_mul bsl W hW
  rw [sched_dc W A B hA1 hAB] at hdid
  rw [sched_a_start, sched_b_start]
  set u := min row (A - 1) with hu
  have hdu : did ≤ u := by omega
  have huA : u ≤ A - 1 := by omega
  obtain ⟨a, ha⟩ : ∃ a, A = a + 1 := ⟨A - 1, by omega⟩
  have hua : u ≤ a := by omega
  have h5 : W * u ≤ W * a := Nat.mul_le_mul_left W hua
  have h6 : did * W ≤ W * u := by
    rw [Nat.mul_comm]
    exact Nat.mul_le_mul_left W hdu
  have h7 : W * a + W = A * W := by rw [ha]; ring
  refine ⟨by omega, by omega, ?_⟩
  have hv : row - u + did ≤ B - 1 := by
    rcases Nat.lt_or_ge row A with hr | hr
    · have : u = row := by omega
      omega
    · have : u = A - 1 := by omega
      omega
  have h9 : W * (row - u + did) ≤ W * (B - 1) := Nat.mul_le_mul_left W hv
  have h10 : W * (row - u + did) = W * (row - u) + W * did := by ring
  have h11 : did * W = W * did := Nat.mul_comm did W
  obtain ⟨b, hb⟩ : ∃ b, B = b + 1 := ⟨B - 1, by omega⟩
  have h12 : W * b + W = B * W := by rw [hb]; ring
  have h13 : W * (B - 1) = W * b := by rw [hb]; simp
  omega

/-- C9: for scheduler-produced dispatch arguments and any thread
passing the gate `diamond_id < diamonds_count`, the `u64` subtractions
`a_start − diamond_id · W`, `a_len − d_a_start` and `b_len − d_b_start`
of `warp_kernel` never underflow: each minuend is at least its
subtrahend (indeed `d_a_start ≤ pa − W < a_len` and
`d_b_start ≤ pb − W < b_len`). -/
theorem claim_C9_no_underflow (asl bsl W row did : ℕ) (hW : 1 ≤ W)
    (h1 : 1 ≤ asl) (hab : asl ≤ bsl)
    (hdid : did < (sched_state W (div_ceil (next_multiple_of_n asl W) W)
      (div_ceil (next_multiple_of_n bsl W) W) row).diamonds_count) :
    did * W ≤ (sched_state W (div_ceil (next_multiple_of_n asl W) W)
        (div_ceil (next_multiple_of_n bsl W) W) row).a_start ∧
    (sched_state W (div_ceil (next_multiple_of_n asl W) W)
        (div_ceil (next_multiple_of_n bsl W) W) row).a_start - did * W ≤ asl ∧
    (sched_state W (div_ceil (next_multiple_of_n asl W) W)
        (div_ceil (next_multiple_of_n bsl W) W) row).b_start + did * W ≤ bsl := by
  obtain ⟨g1, g2, g3⟩ := diamond_start_bounds asl bsl W row did hW h1 hab hdid
  have hpa := next_multiple_of_n_lt asl W hW
  have hpb := next_multiple_of_n_lt bsl W hW
  exact ⟨g1, by omega, by omega⟩

theorem claim_C9_no_underflow_witness :
    (1 ≤ 2 ∧ 1 ≤ 3 ∧ 3 ≤ 5 ∧
      1 < (sched_state 2 (div_ceil (next_multiple_of_n 3 2) 2)
        (div_ceil (next_multiple_of_n 5 2) 2) 1).diamonds_count) ∧
    (1 * 2 ≤ (sched_state 2 (div_ceil (next_multiple_of_n 3 2) 2)
        (div_ceil (next_multiple_of_n 5 2) 2) 1).a_start ∧
    (sched_state 2 (div_ceil (next_multiple_of_n 3 2) 2)
        (div_ceil (next_multiple_of_n 5 2) 2) 1).a_start - 1 * 2 ≤ 3 ∧
    (sched_state 2 (div_ceil (next_multiple_of_n 3 2) 2)
        (div_ceil (next_multiple_of_n 5 2) 2) 1).b_start + 1 * 2 ≤ 5) :=
  ⟨⟨by decide, by decide, by decide, by decide⟩,
   claim_C9_no_underflow 3 5 2 1 1 (by decide) (by decide) (by decide) (by decide)⟩


/-! ### Claim C7: the inner kernel loop -/

/-- The number of `i += 1; s -= 1; e += 1` (grow) updates performed
before entering iteration `d` of the inner loop (updates happen after
iterations `2, …, d−1`, growing while the iteration counter is `≤ W`). -/
def growCount (W d : ℕ) : ℕ := min d (W + 1) - 2

/-- The number of `j += 1; s += 1; e -= 1` (shrink) updates performed
before entering iteration `d` of the inner loop. -/
def shrinkCount (W d : ℕ) : ℕ := d - min d (W + 1)

theorem growCount_two (W : ℕ) (hW : 1 ≤ W) : growCount W 2 = 0 := by
  unfold growCount
  omega

theorem shrinkCount_two (W : ℕ) (hW : 1 ≤ W) : shrinkCount W 2 = 0 := by
  unfold shrinkCount
  omega

theorem growCount_le (W d : ℕ) : growCount W d ≤ W - 1 := by
  unfold growCount
  omega

theorem growCount_succ (W d : ℕ) :
    growCount W (d + 3) =
      if d + 2 ≤ W then growCount W (d + 2) + 1 else growCount W (d + 2) := by
  unfold growCount
  split_ifs with h
  · omega
  · omega

theorem shrinkCount_succ (W d : ℕ) :
    shrinkCount W (d + 3) =
      if d + 2 ≤ W then shrinkCount W (d + 2) else shrinkCount W (d + 2) + 1 := by
  unfold shrinkCount
  split_ifs with h
  · omega
  · omega

/-- The inner loop unrolled against the closed-form register values:
starting at iteration `t + 2` with registers at their closed forms, the
remaining `n` iterations are the fold of one `lanesFold` per iteration
`u + 2` for `u ∈ [t, t + n)`, each at the closed-form half-bounds. -/
theorem innerSteps_closed (f : CostF α) (aF bF : ℕ → α)
    (doff mask W das dbs : ℕ) (mid : ℤ) :
    ∀ (n t : ℕ) (dg : ℕ → α),
      innerSteps f aF bF doff mask W n (t + 2)
        (das + growCount W (t + 2)) (dbs + shrinkCount W (t + 2))
        (mid - (growCount W (t + 2) : ℤ) + (shrinkCount W (t + 2) : ℤ))
        (mid + (growCount W (t + 2) : ℤ) - (shrinkCount W (t + 2) : ℤ)) dg =
      (List.range' t n).foldl
        (fun dg2 u =>
          lanesFold f aF bF doff mask W
            (das + growCount W (u + 2)) (dbs + shrinkCount W (u + 2))
            (mid - (growCount W (u + 2) : ℤ) + (shrinkCount W (u + 2) : ℤ))
            (mid + (growCount W (u + 2) : ℤ) - (shrinkCount W (u + 2) : ℤ)) dg2)
        dg := by
  intro n
  induction n with
  | zero => intro t dg; rfl
  | succ m ih =>
    intro t dg
    rw [innerSteps, List.range'_succ, List.foldl_cons]
    have hg := growCount_succ W t
    have hs := shrinkCount_succ W t
    split_ifs with h
    · rw [if_pos h] at hg
      rw [if_pos h] at hs
      have e1 : das + growCount W (t + 2) + 1 = das + growCount W (t + 1 + 2) := by
        have h3 : t + 1 + 2 = t + 3 := by omega
        rw [h3, hg]
        omega
      have e2 : dbs + shrinkCount W (t + 2) = dbs + shrinkCount W (t + 1 + 2) := by
        have h3 : t + 1 + 2 = t + 3 := by omega
        rw [h3, hs]
      have e3 : mid - (growCount W (t + 2) : ℤ) + (shrinkCount W (t + 2) : ℤ) - 1 =
          mid - (growCount W (t + 1 + 2) : ℤ) + (shrinkCount W (t + 1 + 2) : ℤ) := by
        have h3 : t + 1 + 2 = t + 3 := by omega
        rw [h3, hg, hs]
        push_cast
        ring
      have e4 : mid + (growCount W (t + 2) : ℤ) - (shrinkCount W (t + 2) : ℤ) + 1 =
          mid + (growCount W (t + 1 + 2) : ℤ) - (shrinkCount W (t + 1 + 2) : ℤ) := by
        have h3 : t + 1 + 2 = t + 3 := by omega
        rw [h3, hg, hs]
        push_cast
        ring
      have h4 : t + 2 + 1 = t + 1 + 2 := by omega
      rw [h4, e1, e2, e3, e4, ih (t + 1)]
    · rw [if_neg h] at hg
      rw [if_neg h] at hs
      have e1 : das + growCount W (t + 2) = das + growCount W (t + 1 + 2) := by
        have h3 : t + 1 + 2 = t + 3 := by omega
        rw [h3, hg]
      have e2 : dbs + shrinkCount W (t + 2) + 1 = dbs + shrinkCount W (t + 1 + 2) := by
        have h3 : t + 1 + 2 = t + 3 := by omega
        rw [h3, hs]
        omega
      have e3 : mid - (growCount W (t + 2) : ℤ) + (shrinkCount W (t + 2) : ℤ) + 1 =
          mid - (growCount W (t + 1 + 2) : ℤ) + (shrinkCount W (t + 1 + 2) : ℤ) := by
        have h3 : t + 1 + 2 = t + 3 := by omega
        rw [h3, hg, hs]
        push_cast
        ring
      have e4 : mid + (growCount W (t + 2) : ℤ) - (shrinkCount W (t + 2) : ℤ) - 1 =
          mid + (growCount W (t + 1 + 2) : ℤ) - (shrinkCount W (t + 1 + 2) : ℤ) := by
        have h3 : t + 1 + 2 = t + 3 := by omega
        rw [h3, hg, hs]
        push_cast
        ring
      have h4 : t + 2 + 1 = t + 1 + 2 := by omega
      rw [h4, e1, e2, e3, e4, ih (t + 1)]

/-- The inner kernel as a fold of per-diagonal steps at the closed-form
half-bounds (specialisation of `innerSteps_closed` to the loop entry
`d = 2`, `i = a_start`, `j = b_start`, `s = e = diag_mid`). -/
theorem warp_kernel_inner_closed (f : CostF α) (aF bF : ℕ → α)
    (doff mask W das dbs : ℕ) (hW : 1 ≤ W) (mid : ℤ) (dc : ℕ) (dg : ℕ → α) :
    warp_kernel_inner f aF bF doff mask W das dbs mid dc dg =
      (List.range (dc - 2)).foldl
        (fun dg2 u =>
          lanesFold f aF bF doff mask W
            (das + growCount W (u + 2)) (dbs + shrinkCount W (u + 2))
            (mid - (growCount W (u + 2) : ℤ) + (shrinkCount W (u + 2) : ℤ))
            (mid + (growCount W (u + 2) : ℤ) - (shrinkCount W (u + 2) : ℤ)) dg2)
        dg := by
  have h := innerSteps_closed f aF bF doff mask W das dbs mid (dc - 2) 0 dg
  rw [growCount_two W hW, shrinkCount_two W hW] at h
  simp only [Nat.add_zero, Nat.cast_zero, sub_zero, add_zero] at h
  unfold warp_kernel_inner
  rw [h, List.range'_eq_map_range]
  rw [List.foldl_map]
  simp only [Nat.zero_add]

/-- C7: for every diamond the inner kernel iterates exactly the
diagonal steps `d ∈ [2, diag_count)` with
`diag_count = min(2W+1, (a_len − d_a_start) + (b_len − d_b_start) + 1)`;
at each step the registers stand at their closed forms (`growCount`
grow updates and `shrinkCount` shrink updates applied to the starts and
to both half-bounds, which start at the diamond midpoint); a lane `w`
computes and writes a cell iff `k = 2w + s ≤ e`; and the count of grow
updates increases exactly while `d ≤ W`, the count of shrink updates
exactly afterwards. -/
theorem claim_C7_inner_kernel (W : ℕ) (hW : 1 ≤ W) (f : CostF α)
    (aF bF : ℕ → α) (doff mask das dbs : ℕ) (mid : ℤ) (dc : ℕ) (dg : ℕ → α) :
    (warp_kernel_inner f aF bF doff mask W das dbs mid dc dg =
      (List.range (dc - 2)).foldl
        (fun dg2 u =>
          lanesFold f aF bF doff mask W
            (das + growCount W (u + 2)) (dbs + shrinkCount W (u + 2))
            (mid - (growCount W (u + 2) : ℤ) + (shrinkCount W (u + 2) : ℤ))
            (mid + (growCount W (u + 2) : ℤ) - (shrinkCount W (u + 2) : ℤ)) dg2)
        dg) ∧
    (∀ (fc : ℤ) (row a_start b_start a_len b_len dlen did : ℕ) (dg2 : ℕ → α),
      run_diamond f W fc row a_start b_start a_len b_len doff dlen aF bF did dg2 =
        warp_kernel_inner f aF bF doff (dlen - 1) W
          (a_start - did * W) (b_start + did * W)
          (fc + ((did * W : ℕ) : ℤ) * 2 + (W : ℤ))
          (min (W * 2 + 1)
            ((a_len - (a_start - did * W)) + (b_len - (b_start + did * W)) + 1))
          dg2) ∧
    (∀ (i j : ℕ) (s e : ℤ) (dg2 : ℕ → α) (w : ℕ),
      ((w : ℤ) * 2 + s ≤ e →
        laneWrite f aF bF doff mask i j s e dg2 w =
          Function.update dg2 (slotIdx doff mask ((w : ℤ) * 2 + s))
            (f aF bF (i - w) (j + w)
              (dg2 (slotIdx doff mask ((w : ℤ) * 2 + s - 1)))
              (dg2 (slotIdx doff mask ((w : ℤ) * 2 + s)))
              (dg2 (slotIdx doff mask ((w : ℤ) * 2 + s + 1))))) ∧
      (¬ ((w : ℤ) * 2 + s ≤ e) →
        laneWrite f aF bF doff mask i j s e dg2 w = dg2)) ∧
    (∀ d : ℕ,
      growCount W (d + 3) =
        (if d + 2 ≤ W then growCount W (d + 2) + 1 else growCount W (d + 2)) ∧
      shrinkCount W (d + 3) =
        (if d + 2 ≤ W then shrinkCount W (d + 2) else shrinkCount W (d + 2) + 1)) := by
  refine ⟨warp_kernel_inner_closed f aF bF doff mask W das dbs hW mid dc dg,
    fun fc row a_start b_start a_len b_len dlen did dg2 => rfl,
    fun i j s e dg2 w => ⟨fun h => ?_, fun h => ?_⟩,
    fun d => ⟨growCount_succ W d, shrinkCount_succ W d⟩⟩
  · unfold laneWrite
    rw [if_pos h]
  · unfold laneWrite
    rw [if_neg h]


theorem claim_C7_inner_kernel_witness :
    1 ≤ 1 ∧
    ((warp_kernel_inner (fun _ _ _ _ _ _ _ => (0:ℤ)) (fun _ => 0) (fun _ => 0)
        0 7 1 0 0 (1 : ℤ) 3 (fun _ => 0) =
      (List.range (3 - 2)).foldl
        (fun dg2 u =>
          lanesFold (fun _ _ _ _ _ _ _ => (0:ℤ)) (fun _ => 0) (fun _ => 0) 0 7 1
            (0 + growCount 1 (u + 2)) (0 + shrinkCount 1 (u + 2))
            ((1:ℤ) - (growCount 1 (u + 2) : ℤ) + (shrinkCount 1 (u + 2) : ℤ))
            ((1:ℤ) + (growCount 1 (u + 2) : ℤ) - (shrinkCount 1 (u + 2) : ℤ)) dg2)
        (fun _ => 0)) ∧
    (∀ (fc : ℤ) (row a_start b_start a_len b_len dlen did : ℕ) (dg2 : ℕ → ℤ),
      run_diamond (fun _ _ _ _ _ _ _ => (0:ℤ)) 1 fc row a_start b_start a_len
          b_len 0 dlen (fun _ => 0) (fun _ => 0) did dg2 =
        warp_kernel_inner (fun _ _ _ _ _ _ _ => (0:ℤ)) (fun _ => 0) (fun _ => 0)
          0 (dlen - 1) 1 (a_start - did * 1) (b_start + did * 1)
          (fc + ((did * 1 : ℕ) : ℤ) * 2 + (1 : ℤ))
          (min (1 * 2 + 1)
            ((a_len - (a_start - did * 1)) + (b_len - (b_start + did * 1)) + 1))
          dg2) ∧
    (∀ (i j : ℕ) (s e : ℤ) (dg2 : ℕ → ℤ) (w : ℕ),
      ((w : ℤ) * 2 + s ≤ e →
        laneWrite (fun _ _ _ _ _ _ _ => (0:ℤ)) (fun _ => 0) (fun _ => 0) 0 7
            i j s e dg2 w =
          Function.update dg2 (slotIdx 0 7 ((w : ℤ) * 2 + s))
            ((fun (_ _ : ℕ → ℤ) (_ _ : ℕ) (_ _ _ : ℤ) => (0:ℤ)) (fun _ => 0)
              (fun _ => 0) (i - w) (j + w)
              (dg2 (slotIdx 0 7 ((w : ℤ) * 2 + s - 1)))
              (dg2 (slotIdx 0 7 ((w : ℤ) * 2 + s)))
              (dg2 (slotIdx 0 7 ((w : ℤ) * 2 + s + 1))))) ∧
      (¬ ((w : ℤ) * 2 + s ≤ e) →
        laneWrite (fun _ _ _ _ _ _ _ => (0:ℤ)) (fun _ => 0) (fun _ => 0) 0 7
          i j s e dg2 w = dg2)) ∧
    (∀ d : ℕ,
      growCount 1 (d + 3) =
        (if d + 2 ≤ 1 then growCount 1 (d + 2) + 1 else growCount 1 (d + 2)) ∧
      shrinkCount 1 (d + 3) =
        (if d + 2 ≤ 1 then shrinkCount 1 (d + 2) else shrinkCount 1 (d + 2) + 1))) :=
  ⟨by decide,
   claim_C7_inner_kernel 1 (by decide) (fun _ _ _ _ _ _ _ => (0:ℤ))
     (fun _ => 0) (fun _ => 0) 0 7 0 0 (1 : ℤ) 3 (fun _ => 0)⟩


/-! ### Packed-buffer contents (towards C10, C3 and C1) -/

/-- The padded view of one series: its samples inside `[0, len)` and
zero beyond — the contents `build_padded` produces for each series
slot. -/
def padF (x : List α) : ℕ → α := fun t => x.getD t 0

theorem getD_set_eq (l : List α) (idx : ℕ) (v : α) (h : idx < l.length) :
    (l.set idx v).getD idx 0 = v := by
  rw [List.getD_eq_getElem?_getD, List.getElem?_set_self h]
  rfl

theorem getD_set_ne (l : List α) (idx : ℕ) (v : α) (n : ℕ) (h : n ≠ idx) :
    (l.set idx v).getD n 0 = l.getD n 0 := by
  rw [List.getD_eq_getElem?_getD, List.getElem?_set_ne (by omega),
    ← List.getD_eq_getElem?_getD]

theorem getD_replicate_zero (count : ℕ) (n : ℕ) :
    (List.replicate count (0 : α)).getD n 0 = 0 := by
  rw [List.getD_eq_getElem?_getD, List.getElem?_replicate]
  split_ifs <;> rfl

theorem listSet_some (l : List α) (idx : ℕ) (v : α) (h : idx < l.length) :
    listSet l idx v = some (l.set idx v) := by
  unfold listSet
  rw [if_pos h]

theorem option_some_bind {β γ : Type} (a : β) (g : β → Option γ) :
    (some a >>= g) = g a := rfl

/-- The inner `for j in 0..input[i].len()` fill loop of
`build_padded_multi`: with the whole write window inside the buffer,
it succeeds and writes `row[j]` at `base + j` leaving everything else
unchanged. -/
theorem fill_row (row : List α) (base : ℕ) :
    ∀ (len : ℕ) (buf : List α), base + len ≤ buf.length →
    ∃ buf2,
      (List.range len).foldlM
        (fun b j => listSet b (base + j) (row.getD j 0)) buf = some buf2 ∧
      buf2.length = buf.length ∧
      (∀ j, j < len → buf2.getD (base + j) 0 = row.getD j 0) ∧
      (∀ n, n < base ∨ base + len ≤ n → buf2.getD n 0 = buf.getD n 0) := by
  intro len
  induction len with
  | zero =>
    intro buf hlen
    exact ⟨buf, rfl, rfl, fun j hj => absurd hj (by omega), fun n _ => rfl⟩
  | succ m ih =>
    intro buf hlen
    obtain ⟨buf1, h1, hlen1, hin1, hout1⟩ := ih buf (by omega)
    have hidx : base + m < buf1.length := by omega
    refine ⟨buf1.set (base + m) (row.getD m 0), ?_, ?_, ?_, ?_⟩
    · rw [List.range_succ, List.foldlM_append, h1, option_some_bind,
        List.foldlM_cons, listSet_some _ _ _ hidx, option_some_bind]
      rfl
    · rw [List.length_set]; exact hlen1
    · intro j hj
      rcases Nat.lt_or_ge j m with hjm | hjm
      · rw [getD_set_ne _ _ _ _ (by omega)]
        exact hin1 j hjm
      · have hje : j = m := by omega
        subst hje
        exact getD_set_eq _ _ _ hidx
    · intro n hn
      rw [getD_set_ne _ _ _ _ (by omega)]
      exact hout1 n (by omega)

/-- The outer `for i in 0..input.len()` loop of `build_padded_multi`
over a zero buffer, for a homogeneous batch: each processed series
occupies its `padded_len` slot (data then zeros), the rest of the
buffer stays zero. -/
theorem fill_rows (input : List (List α)) (spl asl : ℕ)
    (hsl : asl ≤ spl)
    (homog : ∀ s ∈ input, s.length = asl) :
    ∀ (mcount : ℕ), mcount ≤ input.length →
    ∃ pk,
      (List.range mcount).foldlM
        (fun buf i =>
          (List.range (input.getD i []).length).foldlM
            (fun buf2 j => listSet buf2 (i * spl + j) ((input.getD i []).getD j 0))
            buf)
        (List.replicate (input.length * spl) (0 : α)) = some pk ∧
      pk.length = input.length * spl ∧
      (∀ i t, i < mcount → t < spl →
        pk.getD (i * spl + t) 0 = padF (input.getD i []) t) ∧
      (∀ n, mcount * spl ≤ n → pk.getD n 0 = 0) := by
  intro mcount
  induction mcount with
  | zero =>
    intro _
    refine ⟨List.replicate (input.length * spl) (0 : α), rfl, List.length_replicate _ _,
      fun i t hi _ => absurd hi (by omega), fun n _ => getD_replicate_zero _ n⟩
  | succ m ih =>
    intro hm
    obtain ⟨pk1, h1, hlen1, hin1, hzero1⟩ := ih (by omega)
    have hrowlen : (input.getD m []).length = asl := by
      have hmem : input.getD m [] ∈ input := by
        rw [List.getD_eq_getElem?_getD,
          List.getElem?_eq_getElem (show m < input.length by omega)]
        exact List.getElem_mem _
      exact homog _ hmem
    have hwin : m * spl + (input.getD m []).length ≤ pk1.length := by
      rw [hlen1, hrowlen]
      have : m * spl + spl = (m + 1) * spl := by ring
      have h2 : (m + 1) * spl ≤ input.length * spl :=
        Nat.mul_le_mul_right spl (by omega)
      omega
    obtain ⟨pk2, h2, hlen2, hin2, hout2⟩ := fill_row (input.getD m []) (m * spl)
      (input.getD m []).length pk1 hwin
    refine ⟨pk2, ?_, by omega, ?_, ?_⟩
    · rw [List.range_succ, List.foldlM_append, h1, option_some_bind,
        List.foldlM_cons, h2, option_some_bind]
      rfl
    · intro i t hi ht
      rcases Nat.lt_or_ge i m with him | him
      · rw [hout2 _ (Or.inl (by
          have h3 : (i + 1) * spl ≤ m * spl := Nat.mul_le_mul_right spl (by omega)
          have h4 : i * spl + t < i * spl + spl := by omega
          have h5 : i * spl + spl = (i + 1) * spl := by ring
          omega))]
        exact hin1 i t him ht
      · have hie : i = m := by omega
        subst hie
        rcases Nat.lt_or_ge t (input.getD i []).length with htl | htl
        · rw [hin2 t htl]
          unfold padF
          rfl
        · have hz : padF (input.getD i []) t = 0 := by
            unfold padF
            rw [List.getD_eq_getElem?_getD,
              List.getElem?_eq_none (show (input.getD i []).length ≤ t by omega)]
            rfl
          rw [hz, hout2 _ (Or.inr (by omega))]
          exact hzero1 _ (by omega)
    · intro n hn
      rw [hout2 n (Or.inr (by
        rw [hrowlen]
        have : m * spl + spl = (m + 1) * spl := by ring
        omega))]
      exact hzero1 n (by
        have : m * spl ≤ (m + 1) * spl := Nat.mul_le_mul_right spl (by omega)
        omega)

/-- `build_padded_multi` on a homogeneous batch: contents lemma. -/
theorem build_padded_multi_content (input : List (List α)) (W : ℕ)
    (hW : 1 ≤ W)
    (homog : ∀ s ∈ input, s.length = sample_length_multi input) :
    ∃ pk, build_padded_multi input W = some pk ∧
      pk.length = input.length * next_multiple_of_n (sample_length_multi input) W ∧
      (∀ i t, i < input.length → t < next_multiple_of_n (sample_length_multi input) W →
        pk.getD (i * next_multiple_of_n (sample_length_multi input) W + t) 0 =
          padF (input.getD i []) t) ∧
      (∀ n, input.length * next_multiple_of_n (sample_length_multi input) W ≤ n →
        pk.getD n 0 = 0) := by
  have hsl : sample_length_multi input ≤
      next_multiple_of_n (sample_length_multi input) W :=
    next_multiple_of_n_ge _ _ hW
  obtain ⟨pk, h1, h2, h3, h4⟩ := fill_rows input
    (next_multiple_of_n (sample_length_multi input) W) (sample_length_multi input)
    hsl homog input.length (le_refl _)
  exact ⟨pk, h1, h2, h3, h4⟩

/-- `build_padded_single` contents lemma: the packed single series
agrees with its padded view everywhere. -/
theorem build_padded_single_content (x : List α) (W : ℕ) (hW : 1 ≤ W) :
    (build_padded_single x W).length = next_multiple_of_n x.length W ∧
    ∀ t, (build_padded_single x W).getD t 0 = padF x t := by
  constructor
  · unfold build_padded_single
    rw [List.length_map, List.length_range]
  · intro t
    unfold build_padded_single padF
    rcases Nat.lt_or_ge t (next_multiple_of_n x.length W) with ht | ht
    · rw [List.getD_eq_getElem?_getD]
      rw [List.getElem?_map]
      rw [List.getElem?_range ht]
      rfl
    · rw [List.getD_eq_getElem?_getD]
      have h1 : ((List.range (next_multiple_of_n x.length W)).map
          (fun t => x.getD t 0)).length ≤ t := by
        rw [List.length_map, List.length_range]; omega
      have h2 : ((List.range (next_multiple_of_n x.length W)).map
          (fun t => x.getD t 0))[t]? = none := List.getElem?_eq_none h1
      rw [h2]
      have h3 : x.length ≤ t := le_trans (next_multiple_of_n_ge _ _ hW) ht
      have h4 : x[t]? = none := List.getElem?_eq_none h3
      rw [List.getD_eq_getElem?_getD, h4]


theorem padF_zero_past (x : List α) (t : ℕ) (h : x.length ≤ t) :
    padF x t = 0 := by
  unfold padF
  rw [List.getD_eq_getElem?_getD, List.getElem?_eq_none h]
  rfl

/-! ### Claim C10: packing / count-extraction round trip -/

/-- C10: for a (homogeneous) batch with sample length `≥ 1`, the packed
buffer has length exactly `samples_count * padded_len`, carries each
series in its slot with zeros past its data, and the engine's division
`packed.len() / padded_len` recovers exactly the series count — for the
multi-series packing and for the single-series packing alike. -/
theorem claim_C10_pack_roundtrip (input : List (List α)) (W : ℕ)
    (hW : 1 ≤ W) (hasl : 1 ≤ sample_length_multi input)
    (homog : ∀ s ∈ input, s.length = sample_length_multi input) :
    ∃ pk, build_padded_multi input W = some pk ∧
      pk.length =
        input.length * next_multiple_of_n (sample_length_multi input) W ∧
      (∀ i t, i < input.length →
        t < next_multiple_of_n (sample_length_multi input) W →
        pk.getD (i * next_multiple_of_n (sample_length_multi input) W + t) 0 =
          padF (input.getD i []) t) ∧
      (∀ i t, i < input.length → sample_length_multi input ≤ t →
        t < next_multiple_of_n (sample_length_multi input) W →
        pk.getD (i * next_multiple_of_n (sample_length_multi input) W + t) 0 = 0) ∧
      pk.length / next_multiple_of_n (sample_length_multi input) W =
        input.length ∧
      (∀ x : List α, 1 ≤ x.length →
        (build_padded_single x W).length / next_multiple_of_n x.length W = 1) := by
  obtain ⟨pk, h1, h2, h3, h4⟩ := build_padded_multi_content input W hW homog
  have hspl : 1 ≤ next_multiple_of_n (sample_length_multi input) W :=
    next_multiple_of_n_pos _ _ hasl hW
  refine ⟨pk, h1, h2, h3, ?_, ?_, ?_⟩
  · intro i t hi hsl ht
    rw [h3 i t hi ht]
    refine padF_zero_past _ _ ?_
    have hmem : input.getD i [] ∈ input := by
      rw [List.getD_eq_getElem?_getD, List.getElem?_eq_getElem hi]
      exact List.getElem_mem _
    rw [homog _ hmem]
    exact hsl
  · rw [h2]
    exact Nat.mul_div_cancel _ (by omega)
  · intro x hx
    obtain ⟨hl, _⟩ := build_padded_single_content x W hW
    rw [hl]
    have hpl : 1 ≤ next_multiple_of_n x.length W :=
      next_multiple_of_n_pos _ _ hx hW
    exact Nat.div_self (by omega)

theorem claim_C10_pack_roundtrip_witness :
    (1 ≤ 2 ∧ 1 ≤ sample_length_multi [[(1:ℤ),2],[3,4]] ∧
      ∀ s ∈ [[(1:ℤ),2],[3,4]], s.length = sample_length_multi [[(1:ℤ),2],[3,4]]) ∧
    (∃ pk, build_padded_multi [[(1:ℤ),2],[3,4]] 2 = some pk ∧
      pk.length =
        ([[(1:ℤ),2],[3,4]] : List (List ℤ)).length *
          next_multiple_of_n (sample_length_multi [[(1:ℤ),2],[3,4]]) 2 ∧
      (∀ i t, i < ([[(1:ℤ),2],[3,4]] : List (List ℤ)).length →
        t < next_multiple_of_n (sample_length_multi [[(1:ℤ),2],[3,4]]) 2 →
        pk.getD (i * next_multiple_of_n (sample_length_multi [[(1:ℤ),2],[3,4]]) 2 + t) 0 =
          padF (([[(1:ℤ),2],[3,4]] : List (List ℤ)).getD i []) t) ∧
      (∀ i t, i < ([[(1:ℤ),2],[3,4]] : List (List ℤ)).length →
        sample_length_multi [[(1:ℤ),2],[3,4]] ≤ t →
        t < next_multiple_of_n (sample_length_multi [[(1:ℤ),2],[3,4]]) 2 →
        pk.getD (i * next_multiple_of_n (sample_length_multi [[(1:ℤ),2],[3,4]]) 2 + t) 0 = 0) ∧
      pk.length / next_multiple_of_n (sample_length_multi [[(1:ℤ),2],[3,4]]) 2 =
        ([[(1:ℤ),2],[3,4]] : List (List ℤ)).length ∧
      (∀ x : List ℤ, 1 ≤ x.length →
        (build_padded_single x 2).length / next_multiple_of_n x.length 2 = 1)) :=
  ⟨⟨by decide, by decide, by decide⟩,
   claim_C10_pack_roundtrip [[(1:ℤ),2],[3,4]] 2 (by decide) (by decide) (by decide)⟩

/-! ### Claim C3: input validation -/

/-- The constant-zero cost body, used to exercise the engine's control
path on concrete inputs. -/
def zeroCost : CostF ℤ := fun _ _ _ _ _ _ _ => 0

/-- C3 counterexample: the batch `A = [[1,2],[3]]` has heterogeneous
series lengths — an invalid input per the claim — yet the engine
performs no validation: the call is not rejected, it packs the short
series zero-padded and runs to completion, producing a result matrix. -/
theorem claim_C3_counterexample :
    (¬ ∀ s ∈ [[(1:ℤ),2],[3]], s.length = sample_length_multi [[(1:ℤ),2],[3]]) ∧
    (diamond_partitioning_gpu_multi zeroCost 1 1000
      [[(1:ℤ),2],[3]] [[(1:ℤ),2]] 0).isSome = true := by
  constructor
  · decide
  · decide

/-- C3 (amended): the engine performs no input validation and has no
`InvalidInput` error: a batch whose later series are shorter than the
first is silently zero-padded and processed to a result; a later
series longer than the first dies in an out-of-bounds packing write (a
panic, modelled `none`), not a reported error; an empty `A` collection
(also an empty `B`, through the swap) yields an empty result matrix
without any dispatch; two empty collections and an empty single-mode
series die in a division by zero (panics, modelled `none`). -/
theorem claim_C3_amended_no_validation :
    (diamond_partitioning_gpu_multi zeroCost 1 1000
      [[(1:ℤ),2],[3]] [[(1:ℤ),2]] 0).isSome = true ∧
    diamond_partitioning_gpu_multi zeroCost 1 1000
      [[(1:ℤ)],[2,3]] [[(4:ℤ)]] 0 = none ∧
    diamond_partitioning_gpu_multi zeroCost 1 1000
      ([] : List (List ℤ)) [[1]] 0 = some [] ∧
    diamond_partitioning_gpu_multi zeroCost 1 1000
      [[(1:ℤ)]] ([] : List (List ℤ)) 0 = some [] ∧
    diamond_partitioning_gpu_multi zeroCost 1 1000
      ([] : List (List ℤ)) ([] : List (List ℤ)) 0 = none ∧
    diamond_partitioning_gpu_single zeroCost 1 1000
      ([] : List ℤ) [(1:ℤ)] 0 = none := by
  refine ⟨by decide, by decide, by decide, by decide, by decide, by decide⟩


/-! ### Segment locality of a dispatch (towards C1)

A `dispatch_pair` on segment `[doff, doff + dlen)` touches nothing
outside its segment (frame), and its behaviour on the segment is the
translate of the same dispatch at offset `0` (shift). -/

theorem slotIdx_shift (doff mask : ℕ) (k : ℤ) :
    slotIdx doff mask k = doff + slotIdx 0 mask k := by
  unfold slotIdx
  omega

theorem slotIdx_lt (doff dlen : ℕ) (hL : 1 ≤ dlen) (k : ℤ) :
    slotIdx doff (dlen - 1) k < doff + dlen := by
  unfold slotIdx
  have := Nat.and_le_right (n := (k % (2 ^ 64 : ℤ)).toNat) (m := dlen - 1)
  omega

theorem laneWrite_frame (f : CostF α) (aF bF : ℕ → α) (doff dlen : ℕ)
    (hL : 1 ≤ dlen) (i j : ℕ) (s e : ℤ) (dg : ℕ → α) (w : ℕ) (idx : ℕ)
    (hidx : idx < doff ∨ doff + dlen ≤ idx) :
    laneWrite f aF bF doff (dlen - 1) i j s e dg w idx = dg idx := by
  unfold laneWrite
  split_ifs with h
  · have hslot : slotIdx doff (dlen - 1) ((w : ℤ) * 2 + s) < doff + dlen :=
      slotIdx_lt doff dlen hL _
    have hge : doff ≤ slotIdx doff (dlen - 1) ((w : ℤ) * 2 + s) := by
      unfold slotIdx; omega
    rw [Function.update_apply, if_neg (by omega)]
  · rfl

theorem lanesFold_frame (f : CostF α) (aF bF : ℕ → α) (doff dlen W : ℕ)
    (hL : 1 ≤ dlen) (i j : ℕ) (s e : ℤ) (dg : ℕ → α) (idx : ℕ)
    (hidx : idx < doff ∨ doff + dlen ≤ idx) :
    lanesFold f aF bF doff (dlen - 1) W i j s e dg idx = dg idx := by
  unfold lanesFold
  induction W with
  | zero => rfl
  | succ m ih =>
    rw [List.range_succ, List.foldl_append, List.foldl_cons, List.foldl_nil]
    rw [laneWrite_frame f aF bF doff dlen hL i j s e _ m idx hidx]
    exact ih

theorem innerSteps_frame (f : CostF α) (aF bF : ℕ → α) (doff dlen W : ℕ)
    (hL : 1 ≤ dlen) (idx : ℕ)
    (hidx : idx < doff ∨ doff + dlen ≤ idx) :
    ∀ (n d i j : ℕ) (s e : ℤ) (dg : ℕ → α),
      innerSteps f aF bF doff (dlen - 1) W n d i j s e dg idx = dg idx := by
  intro n
  induction n with
  | zero => intro d i j s e dg; rfl
  | succ m ih =>
    intro d i j s e dg
    rw [innerSteps]
    split_ifs with h
    · rw [ih]
      exact lanesFold_frame f aF bF doff dlen W hL i j s e dg idx hidx
    · rw [ih]
      exact lanesFold_frame f aF bF doff dlen W hL i j s e dg idx hidx

theorem dispatch_pair_frame (f : CostF α) (W : ℕ) (fc : ℤ)
    (row dc a_start b_start a_len b_len doff dlen : ℕ) (aF bF : ℕ → α)
    (hL : 1 ≤ dlen) (dg : ℕ → α) (idx : ℕ)
    (hidx : idx < doff ∨ doff + dlen ≤ idx) :
    dispatch_pair f W fc row dc a_start b_start a_len b_len doff dlen aF bF dg idx =
      dg idx := by
  unfold dispatch_pair
  induction dc generalizing dg with
  | zero => rfl
  | succ m ih =>
    have hr : List.range (m + 1) = List.range m ++ [m] := List.range_succ m
    rw [hr, List.foldl_append, List.foldl_cons, List.foldl_nil]
    unfold run_diamond warp_kernel_inner
    rw [innerSteps_frame f aF bF doff dlen W hL idx hidx]
    exact ih dg

theorem laneWrite_shift (f : CostF α) (aF bF : ℕ → α) (doff dlen : ℕ)
    (hL : 1 ≤ dlen) (i j : ℕ) (s e : ℤ) (dg dg0 : ℕ → α) (w : ℕ)
    (hrel : ∀ u, u < dlen → dg (doff + u) = dg0 u) :
    ∀ u, u < dlen →
      laneWrite f aF bF doff (dlen - 1) i j s e dg w (doff + u) =
        laneWrite f aF bF 0 (dlen - 1) i j s e dg0 w u := by
  intro u hu
  unfold laneWrite
  split_ifs with h
  · have hr : ∀ k : ℤ, dg (slotIdx doff (dlen - 1) k) = dg0 (slotIdx 0 (dlen - 1) k) := by
      intro k
      rw [slotIdx_shift]
      refine hrel _ ?_
      have := slotIdx_lt 0 dlen hL k
      omega
    rw [hr, hr, hr]
    rw [slotIdx_shift doff (dlen - 1) ((w : ℤ) * 2 + s)]
    by_cases hcase : u = slotIdx 0 (dlen - 1) ((w : ℤ) * 2 + s)
    · rw [Function.update_apply, if_pos (by omega), Function.update_apply, if_pos hcase]
    · rw [Function.update_apply, if_neg (by omega), Function.update_apply, if_neg hcase]
      exact hrel u hu
  · exact hrel u hu

theorem lanesFold_shift (f : CostF α) (aF bF : ℕ → α) (doff dlen W : ℕ)
    (hL : 1 ≤ dlen) (i j : ℕ) (s e : ℤ) (dg dg0 : ℕ → α)
    (hrel : ∀ u, u < dlen → dg (doff + u) = dg0 u) :
    ∀ u, u < dlen →
      lanesFold f aF bF doff (dlen - 1) W i j s e dg (doff + u) =
        lanesFold f aF bF 0 (dlen - 1) W i j s e dg0 u := by
  unfold lanesFold
  induction W generalizing dg dg0 with
  | zero => exact hrel
  | succ m ih =>
    intro u hu
    have hr : List.range (m + 1) = List.range m ++ [m] := List.range_succ m
    rw [hr, List.foldl_append, List.foldl_cons, List.foldl_nil,
      List.foldl_append, List.foldl_cons, List.foldl_nil]
    refine laneWrite_shift f aF bF doff dlen hL i j s e _ _ m ?_ u hu
    intro v hv
    exact ih dg dg0 hrel v hv

theorem innerSteps_shift (f : CostF α) (aF bF : ℕ → α) (doff dlen W : ℕ)
    (hL : 1 ≤ dlen) :
    ∀ (n d i j : ℕ) (s e : ℤ) (dg dg0 : ℕ → α),
      (∀ u, u < dlen → dg (doff + u) = dg0 u) →
      ∀ u, u < dlen →
        innerSteps f aF bF doff (dlen - 1) W n d i j s e dg (doff + u) =
          innerSteps f aF bF 0 (dlen - 1) W n d i j s e dg0 u := by
  intro n
  induction n with
  | zero => intro d i j s e dg dg0 hrel u hu; exact hrel u hu
  | succ m ih =>
    intro d i j s e dg dg0 hrel u hu
    rw [innerSteps, innerSteps]
    split_ifs with h
    · exact ih _ _ _ _ _ _ _
        (fun v hv => lanesFold_shift f aF bF doff dlen W hL i j s e dg dg0 hrel v hv) u hu
    · exact ih _ _ _ _ _ _ _
        (fun v hv => lanesFold_shift f aF bF doff dlen W hL i j s e dg dg0 hrel v hv) u hu

theorem dispatch_pair_shift (f : CostF α) (W : ℕ) (fc : ℤ)
    (row dc a_start b_start a_len b_len doff dlen : ℕ) (aF bF : ℕ → α)
    (hL : 1 ≤ dlen) (dg dg0 : ℕ → α)
    (hrel : ∀ u, u < dlen → dg (doff + u) = dg0 u) :
    ∀ u, u < dlen →
      dispatch_pair f W fc row dc a_start b_start a_len b_len doff dlen aF bF dg
          (doff + u) =
        dispatch_pair f W fc row dc a_start b_start a_len b_len 0 dlen aF bF dg0 u := by
  unfold dispatch_pair
  induction dc generalizing dg dg0 with
  | zero => exact hrel
  | succ m ih =>
    intro u hu
    have hr : List.range (m + 1) = List.range m ++ [m] := List.range_succ m
    rw [hr, List.foldl_append, List.foldl_cons, List.foldl_nil,
      List.foldl_append, List.foldl_cons, List.foldl_nil]
    unfold run_diamond warp_kernel_inner
    exact innerSteps_shift f aF bF doff dlen W hL _ _ _ _ _ _ _ _
      (fun v hv => ih dg dg0 hrel v hv) u hu


/-! ### Series-window congruence (towards C1)

Every cell a scheduler-produced diamond computes lies inside the padded
windows `[0, pa) × [0, pb)`; a cost body that only reads the series
inside those windows therefore cannot distinguish the per-pair slice of
a packed batch buffer from the padded single series. -/

/-- A cost body reads the series buffers only below the padded lengths
of the pair it computes (true of all seven generated kernel bodies,
which read `a` at `i` and `i − 1` and `b` at `j` and `j − 1`). -/
def CostLocal (f : CostF α) (pa pb : ℕ) : Prop :=
  ∀ (a a2 b b2 : ℕ → α) (i j : ℕ) (x y z : α),
    i < pa → j < pb →
    (∀ t, t < pa → a t = a2 t) → (∀ t, t < pb → b t = b2 t) →
    f a b i j x y z = f a2 b2 i j x y z

theorem laneWrite_congr (f : CostF α) (aF aF2 bF bF2 : ℕ → α)
    (doff mask pa pb : ℕ) (hLoc : CostLocal f pa pb)
    (ha : ∀ t, t < pa → aF t = aF2 t) (hb : ∀ t, t < pb → bF t = bF2 t)
    (i j : ℕ) (s e : ℤ) (dg : ℕ → α) (w : ℕ)
    (hij : (w : ℤ) * 2 + s ≤ e → i - w < pa ∧ j + w < pb) :
    laneWrite f aF bF doff mask i j s e dg w =
      laneWrite f aF2 bF2 doff mask i j s e dg w := by
  unfold laneWrite
  dsimp only
  split_ifs with h
  · obtain ⟨hi, hj⟩ := hij h
    rw [hLoc aF aF2 bF bF2 (i - w) (j + w) _ _ _ hi hj ha hb]
  · rfl

theorem lanesFold_congr (f : CostF α) (aF aF2 bF bF2 : ℕ → α)
    (doff mask W pa pb : ℕ) (hLoc : CostLocal f pa pb)
    (ha : ∀ t, t < pa → aF t = aF2 t) (hb : ∀ t, t < pb → bF t = bF2 t)
    (i j : ℕ) (s e : ℤ)
    (hij : ∀ w : ℕ, (w : ℤ) * 2 + s ≤ e → i - w < pa ∧ j + w < pb) :
    ∀ dg : ℕ → α,
      lanesFold f aF bF doff mask W i j s e dg =
        lanesFold f aF2 bF2 doff mask W i j s e dg := by
  unfold lanesFold
  induction W with
  | zero => intro dg; rfl
  | succ m ih =>
    intro dg
    have hr : List.range (m + 1) = List.range m ++ [m] := List.range_succ m
    rw [hr, List.foldl_append, List.foldl_cons, List.foldl_nil,
      List.foldl_append, List.foldl_cons, List.foldl_nil, ih dg]
    exact laneWrite_congr f aF aF2 bF bF2 doff mask pa pb hLoc ha hb i j s e _ m
      (hij m)

theorem foldl_funext {β : Type} (g1 g2 : (ℕ → α) → β → (ℕ → α)) :
    ∀ (l : List β), (∀ (dg : ℕ → α) (u : β), u ∈ l → g1 dg u = g2 dg u) →
    ∀ dg : ℕ → α, l.foldl g1 dg = l.foldl g2 dg := by
  intro l
  induction l with
  | nil => intro _ dg; rfl
  | cons a t ih =>
    intro h dg
    rw [List.foldl_cons, List.foldl_cons,
      h dg a (List.mem_cons_self a t)]
    exact ih (fun dg2 u hu => h dg2 u (List.mem_cons_of_mem a hu)) _

/-- Congruence of the inner kernel in the series buffers, given that
the diamond's start coordinates leave a full warp of room inside the
padded windows. -/
theorem warp_kernel_inner_congr (f : CostF α) (aF aF2 bF bF2 : ℕ → α)
    (doff mask W das dbs pa pb : ℕ) (hW : 1 ≤ W)
    (hLoc : CostLocal f pa pb)
    (ha : ∀ t, t < pa → aF t = aF2 t) (hb : ∀ t, t < pb → bF t = bF2 t)
    (hdas : das + W ≤ pa) (hdbs : dbs + W ≤ pb)
    (mid : ℤ) (dc : ℕ) (dg : ℕ → α) :
    warp_kernel_inner f aF bF doff mask W das dbs mid dc dg =
      warp_kernel_inner f aF2 bF2 doff mask W das dbs mid dc dg := by
  rw [warp_kernel_inner_closed f aF bF doff mask W das dbs hW mid dc dg,
    warp_kernel_inner_closed f aF2 bF2 doff mask W das dbs hW mid dc dg]
  refine foldl_funext _ _ (List.range (dc - 2)) ?_ dg
  intro dg2 u _
  refine lanesFold_congr f aF aF2 bF bF2 doff mask W pa pb hLoc ha hb _ _ _ _ ?_ dg2
  intro w hw
  have hg := growCount_le W (u + 2)
  have hwgh : w + shrinkCount W (u + 2) ≤ growCount W (u + 2) := by
    have : (w : ℤ) * 2 + (mid - (growCount W (u + 2) : ℤ) + (shrinkCount W (u + 2) : ℤ)) ≤
        mid + (growCount W (u + 2) : ℤ) - (shrinkCount W (u + 2) : ℤ) := hw
    omega
  constructor
  · have : das + growCount W (u + 2) - w ≤ das + growCount W (u + 2) := by omega
    omega
  · omega

theorem run_diamond_congr (f : CostF α) (W : ℕ) (fc : ℤ)
    (row a_start b_start a_len b_len doff dlen pa pb : ℕ)
    (aF aF2 bF bF2 : ℕ → α) (did : ℕ) (hW : 1 ≤ W)
    (hLoc : CostLocal f pa pb)
    (ha : ∀ t, t < pa → aF t = aF2 t) (hb : ∀ t, t < pb → bF t = bF2 t)
    (hdas : a_start - did * W + W ≤ pa) (hdbs : b_start + did * W + W ≤ pb)
    (dg : ℕ → α) :
    run_diamond f W fc row a_start b_start a_len b_len doff dlen aF bF did dg =
      run_diamond f W fc row a_start b_start a_len b_len doff dlen aF2 bF2 did dg := by
  unfold run_diamond
  exact warp_kernel_inner_congr f aF aF2 bF bF2 doff (dlen - 1) W _ _ pa pb hW
    hLoc ha hb hdas hdbs _ _ dg

theorem dispatch_pair_congr (f : CostF α) (W : ℕ) (fc : ℤ)
    (row dc a_start b_start a_len b_len doff dlen pa pb : ℕ)
    (aF aF2 bF bF2 : ℕ → α) (hW : 1 ≤ W)
    (hLoc : CostLocal f pa pb)
    (ha : ∀ t, t < pa → aF t = aF2 t) (hb : ∀ t, t < pb → bF t = bF2 t)
    (hbound : ∀ did, did < dc →
      a_start - did * W + W ≤ pa ∧ b_start + did * W + W ≤ pb)
    (dg : ℕ → α) :
    dispatch_pair f W fc row dc a_start b_start a_len b_len doff dlen aF bF dg =
      dispatch_pair f W fc row dc a_start b_start a_len b_len doff dlen aF2 bF2 dg := by
  unfold dispatch_pair
  refine foldl_funext _ _ (List.range dc) ?_ dg
  intro dg2 did hdid
  rw [List.mem_range] at hdid
  obtain ⟨h1, h2⟩ := hbound did hdid
  exact run_diamond_congr f W fc row a_start b_start a_len b_len doff dlen pa pb
    aF aF2 bF bF2 did hW hLoc ha hb h1 h2 dg2


/-! ### Per-pair factorization of a batch dispatch (towards C1) -/

/-- The fold over a set of pairs leaves indices outside all their ring
segments untouched. -/
theorem pairs_fold_frame (f : CostF α) (W : ℕ) (fc : ℤ)
    (row dc a_start b_start a_len b_len dstride pa pb b_count : ℕ)
    (aB bB : ℕ → α) (hL : 1 ≤ dstride) :
    ∀ (l : List ℕ) (dg : ℕ → α) (idx : ℕ),
      (∀ p ∈ l, idx < p * dstride ∨ p * dstride + dstride ≤ idx) →
      l.foldl (fun dg2 p =>
        dispatch_pair f W fc row dc a_start b_start a_len b_len
          (p * dstride) dstride
          (fun t => aB (p / b_count * pa + t)) (fun t => bB (p % b_count * pb + t))
          dg2) dg idx = dg idx := by
  intro l
  induction l with
  | nil => intro dg idx _; rfl
  | cons q t ih =>
    intro dg idx hout
    rw [List.foldl_cons, ih _ idx (fun p hp => hout p (List.mem_cons_of_mem q hp))]
    exact dispatch_pair_frame f W fc row dc a_start b_start a_len b_len
      (q * dstride) dstride _ _ hL dg idx (hout q (List.mem_cons_self q t))

/-- One batch dispatch, observed on the ring segment of pair `p0`,
equals the corresponding single-pair dispatch at segment offset `0` on
the shifted state, with the pair's slice of the packed buffers as its
series. -/
theorem dispatch_batch_segment (f : CostF α) (W : ℕ) (fc : ℤ)
    (row dc a_start b_start a_len b_len a_count b_count dstride pa pb : ℕ)
    (aB bB : ℕ → α) (hL : 1 ≤ dstride)
    (p0 : ℕ) (hp0 : p0 < a_count * b_count) (dg : ℕ → α) (t : ℕ) (ht : t < dstride) :
    dispatch_batch f W fc row dc a_start b_start a_len b_len a_count b_count
        dstride pa pb aB bB dg (p0 * dstride + t) =
      dispatch_pair f W fc row dc a_start b_start a_len b_len 0 dstride
        (fun u => aB (p0 / b_count * pa + u)) (fun u => bB (p0 % b_count * pb + u))
        (fun u => dg (p0 * dstride + u)) t := by
  unfold dispatch_batch
  have hsplit : List.range (a_count * b_count) =
      List.range p0 ++ List.range' p0 (a_count * b_count - p0) := by
    rw [List.range_eq_range', List.range_eq_range']
    have h0 := List.range'_append_1 0 p0 (a_count * b_count - p0)
    rw [Nat.zero_add] at h0
    have hc : a_count * b_count - p0 + p0 = a_count * b_count := by omega
    rw [hc] at h0
    exact h0.symm
  have hsucc : List.range' p0 (a_count * b_count - p0) =
      p0 :: List.range' (p0 + 1) (a_count * b_count - p0 - 1) := by
    have h1 : a_count * b_count - p0 = (a_count * b_count - p0 - 1) + 1 := by omega
    nth_rewrite 1 [h1]
    rw [List.range'_succ]
  rw [hsplit, hsucc, List.foldl_append, List.foldl_cons]
  set dg1 := (List.range p0).foldl _ dg with hdg1
  have hpre : ∀ u, u < dstride → dg1 (p0 * dstride + u) = dg (p0 * dstride + u) := by
    intro u hu
    rw [hdg1]
    refine pairs_fold_frame f W fc row dc a_start b_start a_len b_len dstride
      pa pb b_count aB bB hL (List.range p0) dg (p0 * dstride + u) ?_
    intro p hp
    rw [List.mem_range] at hp
    right
    have : p * dstride + dstride = (p + 1) * dstride := by ring
    have h2 : (p + 1) * dstride ≤ p0 * dstride := Nat.mul_le_mul_right _ (by omega)
    omega
  have hmid : dispatch_pair f W fc row dc a_start b_start a_len b_len
      (p0 * dstride) dstride
      (fun t2 => aB (p0 / b_count * pa + t2)) (fun t2 => bB (p0 % b_count * pb + t2))
      dg1 (p0 * dstride + t) =
    dispatch_pair f W fc row dc a_start b_start a_len b_len 0 dstride
      (fun u => aB (p0 / b_count * pa + u)) (fun u => bB (p0 % b_count * pb + u))
      (fun u => dg (p0 * dstride + u)) t := by
    exact dispatch_pair_shift f W fc row dc a_start b_start a_len b_len
      (p0 * dstride) dstride _ _ hL dg1 (fun u => dg (p0 * dstride + u)) hpre t ht
  rw [← hmid]
  refine pairs_fold_frame f W fc row dc a_start b_start a_len b_len dstride
    pa pb b_count aB bB hL (List.range' (p0 + 1) (a_count * b_count - p0 - 1)) _
    (p0 * dstride + t) ?_
  intro p hp
  rw [List.mem_range'] at hp
  obtain ⟨iidx, _, hpi⟩ := hp
  left
  have hple : p0 + 1 ≤ p := by omega
  have : (p0 + 1) * dstride ≤ p * dstride := Nat.mul_le_mul_right _ hple
  have h2 : (p0 + 1) * dstride = p0 * dstride + dstride := by ring
  omega


/-! ### The per-pair core of the engine (towards C1)

Both modes drive the same scheduler over the same per-pair ring
segment; `pair_rows` / `pair_run` name that common core so that the
batch path (through the per-pair factorization) and the single path
(directly) can be equated against it. -/

/-- The scheduler loop of `diamond_partitioning_gpu_` acting on one
ring segment of one `(a, b)` pair at segment offset `0`. -/
def pair_rows (f : CostF α) (W asl bsl L : ℕ) (aF bF : ℕ → α) (r : ℕ)
    (dg : ℕ → α) : ℕ → α :=
  (List.range r).foldl
    (fun dg2 i =>
      dispatch_pair f W
        (sched_state W (div_ceil (next_multiple_of_n asl W) W)
          (div_ceil (next_multiple_of_n bsl W) W) i).first_coord i
        (sched_state W (div_ceil (next_multiple_of_n asl W) W)
          (div_ceil (next_multiple_of_n bsl W) W) i).diamonds_count
        (sched_state W (div_ceil (next_multiple_of_n asl W) W)
          (div_ceil (next_multiple_of_n bsl W) W) i).a_start
        (sched_state W (div_ceil (next_multiple_of_n asl W) W)
          (div_ceil (next_multiple_of_n bsl W) W) i).b_start
        asl bsl 0 L aF bF dg2)
    dg

/-- The full engine run of one `(a, b)` pair: all scheduler rows on a
single ring segment followed by the result-cell read. -/
def pair_run (f : CostF α) (W asl bsl : ℕ) (aF bF : ℕ → α)
    (init_val : α) : α :=
  pair_rows f W asl bsl (compute_diag_len asl W) aF bF
    (div_ceil (next_multiple_of_n asl W + next_multiple_of_n bsl W) W - 1)
    (initDiag 1 (compute_diag_len asl W) init_val)
    (slotIdx 0 (compute_diag_len asl W - 1) ((bsl : ℤ) - (asl : ℤ)))

theorem dispatch_pair_restrict (f : CostF α) (W : ℕ) (fc : ℤ)
    (row dc a_start b_start a_len b_len dlen : ℕ) (aF bF : ℕ → α)
    (hL : 1 ≤ dlen) (dg dg2 : ℕ → α)
    (h : ∀ u, u < dlen → dg u = dg2 u) :
    ∀ t, t < dlen →
      dispatch_pair f W fc row dc a_start b_start a_len b_len 0 dlen aF bF dg t =
        dispatch_pair f W fc row dc a_start b_start a_len b_len 0 dlen aF bF dg2 t := by
  intro t ht
  have h2 := dispatch_pair_shift f W fc row dc a_start b_start a_len b_len 0 dlen
    aF bF hL dg dg2 (by intro u hu; rw [Nat.zero_add]; exact h u hu) t ht
  rw [Nat.zero_add] at h2
  exact h2

theorem pair_rows_restrict (f : CostF α) (W asl bsl L : ℕ) (aF bF : ℕ → α)
    (hL : 1 ≤ L) :
    ∀ (r : ℕ) (dg dg2 : ℕ → α), (∀ u, u < L → dg u = dg2 u) →
    ∀ t, t < L →
      pair_rows f W asl bsl L aF bF r dg t = pair_rows f W asl bsl L aF bF r dg2 t := by
  intro r
  induction r with
  | zero => intro dg dg2 h t ht; exact h t ht
  | succ m ih =>
    intro dg dg2 h t ht
    unfold pair_rows
    have hr : List.range (m + 1) = List.range m ++ [m] := List.range_succ m
    rw [hr, List.foldl_append, List.foldl_cons, List.foldl_nil,
      List.foldl_append, List.foldl_cons, List.foldl_nil]
    exact dispatch_pair_restrict f W _ m _ _ _ asl bsl L aF bF hL _ _
      (fun u hu => ih dg dg2 h u hu) t ht

theorem initDiag_segment (npairs L : ℕ) (init_val : α) (p : ℕ)
    (hp : p < npairs) (hL : 1 ≤ L) :
    ∀ u, u < L → initDiag npairs L init_val (p * L + u) = initDiag 1 L init_val u := by
  intro u hu
  unfold initDiag
  have h1 : p * L + u < npairs * L := by
    have h2 : p * L + L ≤ npairs * L := by
      have : (p + 1) * L ≤ npairs * L := Nat.mul_le_mul_right _ (by omega)
      have h3 : (p + 1) * L = p * L + L := by ring
      omega
    omega
  have h2 : (p * L + u) % L = u := by
    rw [Nat.add_comm, Nat.add_mul_mod_self_right]
    exact Nat.mod_eq_of_lt hu
  have h3 : u % L = u := Nat.mod_eq_of_lt hu
  split_ifs with ha hb hb
  · rfl
  · exfalso; apply hb; constructor
    · omega
    · omega
  · exfalso
    obtain ⟨hb1, hb2⟩ := hb
    exact ha ⟨h1, by omega⟩
  · rfl


/-- The heart of the batch/single equivalence: after any number of
scheduler rows, the segment of pair `p` in the batch diagonal equals
the single-pair scheduler run on the shifted initial segment, with the
pair's own (padded) series. -/
theorem batch_pair_sim (f : CostF α) (W asl bsl : ℕ) (hW : 1 ≤ W)
    (hasl : 1 ≤ asl) (hab : asl ≤ bsl) (ac bc : ℕ) (aB bB : ℕ → α)
    (aS bS : ℕ → ℕ → α)
    (hLoc : CostLocal f (next_multiple_of_n asl W) (next_multiple_of_n bsl W))
    (haB : ∀ ai, ai < ac → ∀ u, u < next_multiple_of_n asl W →
      aB (ai * next_multiple_of_n asl W + u) = aS ai u)
    (hbB : ∀ bi, bi < bc → ∀ u, u < next_multiple_of_n bsl W →
      bB (bi * next_multiple_of_n bsl W + u) = bS bi u)
    (dg0 : ℕ → α) :
    ∀ r : ℕ, ∀ p t : ℕ, p < ac * bc → t < compute_diag_len asl W →
      (List.range r).foldl
        (fun dg i =>
          dispatch_batch f W
            (sched_state W (div_ceil (next_multiple_of_n asl W) W)
              (div_ceil (next_multiple_of_n bsl W) W) i).first_coord i
            (sched_state W (div_ceil (next_multiple_of_n asl W) W)
              (div_ceil (next_multiple_of_n bsl W) W) i).diamonds_count
            (sched_state W (div_ceil (next_multiple_of_n asl W) W)
              (div_ceil (next_multiple_of_n bsl W) W) i).a_start
            (sched_state W (div_ceil (next_multiple_of_n asl W) W)
              (div_ceil (next_multiple_of_n bsl W) W) i).b_start
            asl bsl ac bc (compute_diag_len asl W)
            (next_multiple_of_n asl W) (next_multiple_of_n bsl W) aB bB dg)
        dg0 (p * compute_diag_len asl W + t) =
      pair_rows f W asl bsl (compute_diag_len asl W) (aS (p / bc)) (bS (p % bc)) r
        (fun u => dg0 (p * compute_diag_len asl W + u)) t := by
  have hL : 1 ≤ compute_diag_len asl W := by
    have := compute_diag_len_ge asl W
    omega
  intro r
  induction r with
  | zero => intro p t _ _; rfl
  | succ m ih =>
    intro p t hp ht
    have hbc : 0 < bc := by
      rcases Nat.eq_zero_or_pos bc with h0 | h; · rw [h0, Nat.mul_zero] at hp; omega
      · exact h
    have hdivlt : p / bc < ac := by
      rw [Nat.div_lt_iff_lt_mul hbc]
      calc p < ac * bc := hp
        _ = ac * bc := rfl
    have hmodlt : p % bc < bc := Nat.mod_lt _ hbc
    have hr : List.range (m + 1) = List.range m ++ [m] := List.range_succ m
    unfold pair_rows
    rw [hr, List.foldl_append, List.foldl_cons, List.foldl_nil,
      List.foldl_append, List.foldl_cons, List.foldl_nil]
    rw [dispatch_batch_segment f W _ m _ _ _ asl bsl ac bc
      (compute_diag_len asl W) (next_multiple_of_n asl W) (next_multiple_of_n bsl W)
      aB bB hL p hp _ t ht]
    rw [dispatch_pair_congr f W _ m _ _ _ asl bsl 0 (compute_diag_len asl W)
      (next_multiple_of_n asl W) (next_multiple_of_n bsl W)
      (fun u => aB (p / bc * next_multiple_of_n asl W + u)) (aS (p / bc))
      (fun u => bB (p % bc * next_multiple_of_n bsl W + u)) (bS (p % bc))
      hW hLoc
      (fun u hu => haB (p / bc) hdivlt u hu)
      (fun u hu => hbB (p % bc) hmodlt u hu)
      (fun did hdid =>
        (diamond_start_bounds asl bsl W m did hW hasl hab hdid).2)
      _]
    exact dispatch_pair_restrict f W _ m _ _ _ asl bsl
      (compute_diag_len asl W) (aS (p / bc)) (bS (p % bc)) hL _ _
      (fun u hu => ih p u hp hu) t ht

/-- The batch-mode core engine equals, entry by entry, the per-pair
core run on that pair's padded series. -/
theorem run_batch_eq_pairs (f : CostF α) (W asl bsl : ℕ) (aPk bPk : List α)
    (init_val : α) (ac bc : ℕ) (aS bS : ℕ → ℕ → α)
    (hW : 1 ≤ W) (hasl : 1 ≤ asl) (hab : asl ≤ bsl)
    (hal : aPk.length = ac * next_multiple_of_n asl W)
    (hbl : bPk.length = bc * next_multiple_of_n bsl W)
    (haC : ∀ ai, ai < ac → ∀ u, u < next_multiple_of_n asl W →
      aPk.getD (ai * next_multiple_of_n asl W + u) 0 = aS ai u)
    (hbC : ∀ bi, bi < bc → ∀ u, u < next_multiple_of_n bsl W →
      bPk.getD (bi * next_multiple_of_n bsl W + u) 0 = bS bi u)
    (hLoc : CostLocal f (next_multiple_of_n asl W) (next_multiple_of_n bsl W)) :
    diamond_partitioning_run f W asl bsl aPk bPk init_val true =
      some ((List.range ac).map (fun i => (List.range bc).map (fun j =>
        pair_run f W asl bsl (aS i) (bS j) init_val))) := by
  have hpa1 : 1 ≤ next_multiple_of_n asl W := next_multiple_of_n_pos _ _ hasl hW
  have hpb1 : 1 ≤ next_multiple_of_n bsl W :=
    next_multiple_of_n_pos _ _ (by omega) hW
  simp only [diamond_partitioning_run]
  rw [if_neg (by omega)]
  have hL : 1 ≤ compute_diag_len asl W := by
    have := compute_diag_len_ge asl W
    omega
  have hacr : aPk.length / next_multiple_of_n asl W = ac := by
    rw [hal]; exact Nat.mul_div_cancel _ (by omega)
  have hbcr : bPk.length / next_multiple_of_n bsl W = bc := by
    rw [hbl]; exact Nat.mul_div_cancel _ (by omega)
  simp only [if_true, hacr, hbcr]
  refine congrArg some (List.map_congr_left ?_)
  intro i hi
  rw [List.mem_range] at hi
  refine List.map_congr_left ?_
  intro j hj
  rw [List.mem_range] at hj
  have hbc : 0 < bc := by omega
  have hp : i * bc + j < ac * bc := by
    have h1 : (i + 1) * bc ≤ ac * bc := Nat.mul_le_mul_right _ (by omega)
    have h2 : (i + 1) * bc = i * bc + bc := by ring
    omega
  have hslot : slotIdx ((i * bc + j) * compute_diag_len asl W)
      (compute_diag_len asl W - 1) ((bsl : ℤ) - (asl : ℤ)) =
      (i * bc + j) * compute_diag_len asl W +
        slotIdx 0 (compute_diag_len asl W - 1) ((bsl : ℤ) - (asl : ℤ)) :=
    slotIdx_shift _ _ _
  have hslt : slotIdx 0 (compute_diag_len asl W - 1) ((bsl : ℤ) - (asl : ℤ)) <
      compute_diag_len asl W := by
    have := slotIdx_lt 0 (compute_diag_len asl W) hL ((bsl : ℤ) - (asl : ℤ))
    omega
  rw [hslot]
  rw [batch_pair_sim f W asl bsl hW hasl hab ac bc
    (fun t => aPk.getD t 0) (fun t => bPk.getD t 0) aS bS hLoc
    (fun ai hai u hu => haC ai hai u hu)
    (fun bi hbi u hu => hbC bi hbi u hu)
    (initDiag (ac * bc) (compute_diag_len asl W) init_val)
    (div_ceil (next_multiple_of_n asl W + next_multiple_of_n bsl W) W - 1)
    (i * bc + j) _ hp hslt]
  have hdiv : (i * bc + j) / bc = i := by
    rw [Nat.add_comm, Nat.add_mul_div_right _ _ hbc, Nat.div_eq_of_lt hj,
      Nat.zero_add]
  have hmod : (i * bc + j) % bc = j := by
    rw [Nat.add_comm, Nat.add_mul_mod_self_right]
    exact Nat.mod_eq_of_lt hj
  rw [hdiv, hmod]
  unfold pair_run
  exact pair_rows_restrict f W asl bsl (compute_diag_len asl W) (aS i) (bS j) hL
    _ _ _
    (fun u hu => initDiag_segment (ac * bc) (compute_diag_len asl W) init_val
      (i * bc + j) hp hL u hu)
    _ hslt

/-- The single-mode core engine (and its wrapper) compute exactly the
per-pair core run on the padded series. -/
theorem run_single_eq_pair (f : CostF α) (W : ℕ) (a b : List α) (init_val : α)
    (hW : 1 ≤ W) (h1 : 1 ≤ a.length) (hab : a.length ≤ b.length) :
    diamond_partitioning_run f W a.length b.length
        (build_padded_single a W) (build_padded_single b W) init_val false =
      some [[pair_run f W a.length b.length (padF a) (padF b) init_val]] := by
  have hpa1 : 1 ≤ next_multiple_of_n a.length W := next_multiple_of_n_pos _ _ h1 hW
  have hpb1 : 1 ≤ next_multiple_of_n b.length W :=
    next_multiple_of_n_pos _ _ (by omega) hW
  have hL : 1 ≤ compute_diag_len a.length W := by
    have := compute_diag_len_ge a.length W
    omega
  obtain ⟨hla, hca⟩ := build_padded_single_content a W hW
  obtain ⟨hlb, hcb⟩ := build_padded_single_content b W hW
  have hacr : (build_padded_single a W).length / next_multiple_of_n a.length W = 1 := by
    rw [hla]; exact Nat.div_self (by omega)
  have hbcr : (build_padded_single b W).length / next_multiple_of_n b.length W = 1 := by
    rw [hlb]; exact Nat.div_self (by omega)
  have hfa : (fun t => (build_padded_single a W).getD t 0) = padF a := funext hca
  have hfb : (fun t => (build_padded_single b W).getD t 0) = padF b := funext hcb
  simp only [diamond_partitioning_run]
  rw [if_neg (by omega)]
  have hr1 : List.range 1 = [0] := rfl
  simp only [hacr, hbcr, Nat.one_mul, hfa, hfb, Bool.false_eq_true, if_false,
    hr1, List.map_cons, List.map_nil, Nat.zero_mul, Nat.zero_add, Nat.mul_one]
  unfold pair_run pair_rows
  rfl


theorem single_eq_pair (f : CostF α) (W mb : ℕ) (a b : List α) (init_val : α)
    (hW : 1 ≤ W) (h1 : 1 ≤ a.length) (hab : a.length ≤ b.length) :
    diamond_partitioning_gpu_single f W mb a b init_val =
      some (pair_run f W a.length b.length (padF a) (padF b) init_val) := by
  simp only [diamond_partitioning_gpu_single]
  rw [if_neg (show ¬ a.length > b.length by omega)]
  rw [if_neg (show ¬ W = 0 by omega)]
  rw [run_single_eq_pair f W a b init_val hW h1 hab]
  rfl


theorem chunkRuns_eq (f : CostF α) (W : ℕ) (A B : List (List α)) (ab : ℕ)
    (init_val : α) (hW : 1 ≤ W)
    (homA : ∀ s ∈ A, s.length = sample_length_multi A)
    (homB : ∀ s ∈ B, s.length = sample_length_multi B)
    (hla : 1 ≤ sample_length_multi A) (hBne : 1 ≤ B.length)
    (hlbge : sample_length_multi A ≤ sample_length_multi B)
    (hab1 : 1 ≤ ab)
    (hLoc : CostLocal f (next_multiple_of_n (sample_length_multi A) W)
      (next_multiple_of_n (sample_length_multi B) W)) :
    ∀ fuel start : ℕ, A.length - start ≤ fuel →
    ∃ runs, chunkRuns f W A B ab init_val fuel start = some runs ∧
      runs.flatten = (List.range (A.length - start)).map (fun r =>
        (List.range B.length).map (fun j =>
          pair_run f W (sample_length_multi A) (sample_length_multi B)
            (padF (A.getD (start + r) [])) (padF (B.getD j [])) init_val)) := by
  intro fuel
  induction fuel with
  | zero =>
    intro start hb
    refine ⟨[], ?_, ?_⟩
    · simp only [chunkRuns]
      rw [if_neg (by omega)]
    · have h0 : A.length - start = 0 := by omega
      rw [h0]
      rfl
  | succ m ih =>
    intro start hb
    by_cases hst : start < A.length
    case neg =>
      refine ⟨[], ?_, ?_⟩
      · simp only [chunkRuns]
        rw [if_neg hst]
      · have h0 : A.length - start = 0 := by omega
        rw [h0]
        rfl
    case pos =>
      set len := min ab (A.length - start) with hlendef
      have hlen1 : 1 ≤ len := by omega
      have hlenle : len ≤ A.length - start := by omega
      set chunk := (A.drop start).take len with hchunkdef
      have hchlen : chunk.length = len := by
        rw [hchunkdef, List.length_take, List.length_drop]
        omega
      have hmem : ∀ s ∈ chunk, s ∈ A := by
        intro s hs
        exact ((List.take_sublist _ _).trans (List.drop_sublist _ _)).subset hs
      have hget : ∀ r, r < len → chunk.getD r [] = A.getD (start + r) [] := by
        intro r hr
        rw [List.getD_eq_getElem?_getD, List.getD_eq_getElem?_getD, hchunkdef,
          List.getElem?_take_of_lt hr, List.getElem?_drop]
      have hcne : chunk ≠ [] := by
        intro hnil
        rw [hnil] at hchlen
        simp at hchlen
        omega
      have hsc : sample_length_multi chunk = sample_length_multi A := by
        obtain ⟨x, xs, hx⟩ := List.exists_cons_of_ne_nil hcne
        have hxm : x ∈ chunk := by rw [hx]; exact List.mem_cons_self x xs
        unfold sample_length_multi
        rw [hx]
        exact homA x (hmem x hxm)
      have homC : ∀ s ∈ chunk, s.length = sample_length_multi chunk := by
        intro s hs
        rw [hsc]
        exact homA s (hmem s hs)
      obtain ⟨aPk, haPk, haLen, haC, _⟩ := build_padded_multi_content chunk W hW homC
      obtain ⟨bPk, hbPk, hbLen, hbC, _⟩ := build_padded_multi_content B W hW homB
      rw [hsc] at haLen haC
      rw [hchlen] at haLen haC
      have hrun := run_batch_eq_pairs f W (sample_length_multi A)
        (sample_length_multi B) aPk bPk init_val len B.length
        (fun ai => padF (chunk.getD ai [])) (fun bi => padF (B.getD bi []))
        hW hla hlbge haLen hbLen (fun ai hai u hu => haC ai u hai hu)
        (fun bi hbi u hu => hbC bi u hbi hu) hLoc
      obtain ⟨rest, hrest, hrestf⟩ := ih (start + len) (by omega)
      refine ⟨((List.range len).map (fun i => (List.range B.length).map (fun j =>
        pair_run f W (sample_length_multi A) (sample_length_multi B)
          (padF (chunk.getD i [])) (padF (B.getD j [])) init_val))) :: rest, ?_, ?_⟩
      · simp only [chunkRuns]
        rw [if_pos hst]
        rw [← hlendef, ← hchunkdef, haPk, hbPk, hsc]
        dsimp only
        rw [hrun]
        dsimp only
        rw [hrest]
      · rw [List.flatten_cons, hrestf]
        have hsplit : A.length - start = len + (A.length - (start + len)) := by omega
        rw [hsplit]
        have hrange : List.range (len + (A.length - (start + len))) =
            List.range len ++ List.range' len (A.length - (start + len)) := by
          simp only [List.range_eq_range']
          have h0 := List.range'_append_1 0 len (A.length - (start + len))
          rw [Nat.zero_add] at h0
          have hc : A.length - (start + len) + len = len + (A.length - (start + len)) := by omega
          rw [hc] at h0
          exact h0.symm
        rw [hrange, List.map_append]
        congr 1
        · refine List.map_congr_left ?_
          intro r hr
          rw [List.mem_range] at hr
          rw [hget r hr]
        · rw [List.range'_eq_map_range, List.map_map]
          refine List.map_congr_left ?_
          intro r hr
          rw [List.mem_range] at hr
          have : start + (len + r) = start + len + r := by omega
          simp only [Function.comp]
          rw [this]


theorem multi_swap_eq (f : CostF α) (W mb : ℕ) (a b : List (List α))
    (init_val : α) (h : sample_length_multi b < sample_length_multi a) :
    diamond_partitioning_gpu_multi f W mb a b init_val =
      diamond_partitioning_gpu_multi f W mb b a init_val := by
  simp only [diamond_partitioning_gpu_multi]
  rw [if_pos (show sample_length_multi a > sample_length_multi b from h),
    if_neg (show ¬ sample_length_multi b > sample_length_multi a by omega)]

theorem multi_noswap (f : CostF α) (W mb : ℕ) (a b : List (List α))
    (init_val : α) (hW : 1 ≤ W)
    (homA : ∀ s ∈ a, s.length = sample_length_multi a)
    (homB : ∀ s ∈ b, s.length = sample_length_multi b)
    (hla : 1 ≤ sample_length_multi a) (hBne : 1 ≤ b.length)
    (hle : sample_length_multi a ≤ sample_length_multi b)
    (hLoc : CostLocal f (next_multiple_of_n (sample_length_multi a) W)
      (next_multiple_of_n (sample_length_multi b) W)) :
    diamond_partitioning_gpu_multi f W mb a b init_val =
      some ((List.range a.length).map (fun r => (List.range b.length).map (fun j =>
        pair_run f W (sample_length_multi a) (sample_length_multi b)
          (padF (a.getD r [])) (padF (b.getD j [])) init_val))) := by
  simp only [diamond_partitioning_gpu_multi]
  rw [if_neg (show ¬ sample_length_multi a > sample_length_multi b by omega)]
  dsimp only
  rw [if_neg (show ¬ (W = 0 ∨ b.length = 0) by push_neg; omega)]
  have hab1 : 1 ≤ a_batch_size mb
      (compute_diag_len (sample_length_multi a) W) b.length a.length :=
    le_max_right _ 1
  obtain ⟨runs, hrs, hfl⟩ := chunkRuns_eq f W a b
    (a_batch_size mb (compute_diag_len (sample_length_multi a) W) b.length a.length)
    init_val hW homA homB hla hBne hle hab1 hLoc a.length 0 (by omega)
  rw [hrs]
  dsimp only
  rw [hfl]
  simp only [Nat.sub_zero, Nat.zero_add]


/-- C1 counterexample: with `A = [[0,0]]` (one series of length 2) and
`B = [[0],[0]]` (two series of length 1), the engine swaps the inputs
(`B` is shorter) and never transposes back: the returned matrix has 2
rows — indexed by the caller's `B` — not the `|A| = 1` rows the claim
requires. -/
theorem claim_C1_counterexample :
    (diamond_partitioning_gpu_multi zeroCost 1 64
        [[(0:ℤ),0]] [[0],[0]] 0).map List.length ≠
      some ([[(0:ℤ),0]] : List (List ℤ)).length := by
  decide

/-- C1 (amended): when `A`'s series are strictly longer the engine
computes the transposed problem (`multi A B = multi B A`) and returns
its matrix without transposing back, so rows are indexed by the
post-swap `a` collection; and in the sorted orientation
(`sample_length A ≤ sample_length B`, homogeneous collections,
`B` non-empty, cost body reading only below the padded lengths) the
batch result is exactly the matrix of single-mode results:
`M[i][j] = single (A[i], B[j])`, with no tolerance needed. -/
theorem claim_C1_amended_batch_consistency (f : CostF α) (W mb : ℕ)
    (A B : List (List α)) (init_val : α) (hW : 1 ≤ W)
    (homA : ∀ s ∈ A, s.length = sample_length_multi A)
    (homB : ∀ s ∈ B, s.length = sample_length_multi B)
    (hla : 1 ≤ sample_length_multi A) (hBne : 1 ≤ B.length)
    (hle : sample_length_multi A ≤ sample_length_multi B)
    (hLoc : CostLocal f (next_multiple_of_n (sample_length_multi A) W)
      (next_multiple_of_n (sample_length_multi B) W)) :
    (∀ A2 B2 : List (List α), sample_length_multi B2 < sample_length_multi A2 →
      diamond_partitioning_gpu_multi f W mb A2 B2 init_val =
        diamond_partitioning_gpu_multi f W mb B2 A2 init_val) ∧
    ∃ M, diamond_partitioning_gpu_multi f W mb A B init_val = some M ∧
      M.length = A.length ∧
      (∀ row ∈ M, row.length = B.length) ∧
      (∀ i j, i < A.length → j < B.length →
        diamond_partitioning_gpu_single f W mb (A.getD i []) (B.getD j [])
          init_val = some ((M.getD i []).getD j 0)) := by
  refine ⟨fun A2 B2 h => multi_swap_eq f W mb A2 B2 init_val h, ?_⟩
  refine ⟨_, multi_noswap f W mb A B init_val hW homA homB hla hBne hle hLoc,
    ?_, ?_, ?_⟩
  · rw [List.length_map, List.length_range]
  · intro row hrow
    obtain ⟨r, _, hrw⟩ := List.mem_map.mp hrow
    rw [← hrw, List.length_map, List.length_range]
  · intro i j hi hj
    have hmi : A.getD i [] ∈ A := by
      rw [List.getD_eq_getElem?_getD, List.getElem?_eq_getElem hi]
      exact List.getElem_mem _
    have hmj : B.getD j [] ∈ B := by
      rw [List.getD_eq_getElem?_getD, List.getElem?_eq_getElem hj]
      exact List.getElem_mem _
    have hli : (A.getD i []).length = sample_length_multi A := homA _ hmi
    have hlj : (B.getD j []).length = sample_length_multi B := homB _ hmj
    have hgi : (((List.range A.length).map (fun r => (List.range B.length).map
        (fun j2 => pair_run f W (sample_length_multi A) (sample_length_multi B)
          (padF (A.getD r [])) (padF (B.getD j2 [])) init_val))).getD i []) =
        (List.range B.length).map (fun j2 =>
          pair_run f W (sample_length_multi A) (sample_length_multi B)
            (padF (A.getD i [])) (padF (B.getD j2 [])) init_val) := by
      rw [List.getD_eq_getElem?_getD, List.getElem?_map, List.getElem?_range hi]
      rfl
    rw [hgi]
    have hgj : (((List.range B.length).map (fun j2 =>
        pair_run f W (sample_length_multi A) (sample_length_multi B)
          (padF (A.getD i [])) (padF (B.getD j2 [])) init_val)).getD j 0) =
        pair_run f W (sample_length_multi A) (sample_length_multi B)
          (padF (A.getD i [])) (padF (B.getD j [])) init_val := by
      rw [List.getD_eq_getElem?_getD, List.getElem?_map, List.getElem?_range hj]
      rfl
    rw [hgj]
    rw [single_eq_pair f W mb (A.getD i []) (B.getD j []) init_val hW
      (by rw [hli]; exact hla) (by rw [hli, hlj]; exact hle)]
    rw [hli, hlj]


theorem claim_C1_amended_batch_consistency_witness :
    ∃ M, diamond_partitioning_gpu_multi zeroCost 1 64 [[(0:ℤ)]] [[0,0]] 0 =
        some M ∧
      M.length = ([[(0:ℤ)]] : List (List ℤ)).length ∧
      (∀ row ∈ M, row.length = ([[(0:ℤ),0]] : List (List ℤ)).length) ∧
      (∀ i j, i < ([[(0:ℤ)]] : List (List ℤ)).length →
        j < ([[(0:ℤ),0]] : List (List ℤ)).length →
        diamond_partitioning_gpu_single zeroCost 1 64
          (([[(0:ℤ)]] : List (List ℤ)).getD i [])
          (([[(0:ℤ),0]] : List (List ℤ)).getD j []) 0 =
          some ((M.getD i []).getD j 0)) :=
  (claim_C1_amended_batch_consistency zeroCost 1 64 [[(0:ℤ)]] [[0,0]] 0
    (by decide) (by decide) (by decide) (by decide) (by decide) (by decide)
    (fun _ _ _ _ _ _ _ _ _ _ _ _ _ => rfl)).2

end TsdGpu
